import Mathlib

set_option linter.unusedSectionVars false
set_option linter.unusedVariables false

/-!
Verification of the graph engine of a small network-analysis program
(three scripts: structural metrics, BFS/DFS path search, Dijkstra
shortest distances, all over one undirected topology).

The source operates on `networkx` graphs.  We embed such a graph as a
list of nodes plus a list of edges; node identifiers form an arbitrary
linearly ordered type (the source uses Python strings, whose comparison
is lexicographic, matching `String`'s order used in the concrete
instances below).  Library behaviour that the source relies on is
modelled by its contract:

* `G.neighbors(node)` enumerates the adjacency of `node` and raises an
  error when `node` is absent from the graph; in the embeddings the
  raise is an explicit `none` branch.
* `heapq` push/pop on `(distance, node)` tuples is a priority queue
  whose pop returns the least tuple in lexicographic order; since that
  order is total and equal tuples are identical, the pop sequence is
  exactly that of a lexicographically sorted list, which is how we
  model the queue.
* Python loops become fuelled recursion; each top-level entry point
  passes a concrete fuel for which termination is proved, so `none`
  from fuel exhaustion never occurs there.

Numeric edge weights (`1.0 / speed_mbps` over Python floats) are
modelled as exact rationals.
-/

namespace NetGraph

variable {V : Type} [LinearOrder V]

/-- Pointwise update of a finite-map-as-function (a Python dict entry
assignment `m[x] = b`). -/
def updF {α β : Type} [DecidableEq α] (f : α → β) (x : α) (b : β) : α → β :=
  fun y => if y = x then b else f y

/-- An undirected `networkx` graph as used by `task_02_graph.py`: the node
list and the edge list (edge attributes are irrelevant to the unweighted
search algorithms and are dropped). -/
structure SGraph (V : Type) where
  nodes : List V
  edges : List (V × V)

/-- `u` and `v` are joined by an edge (in either orientation, the graph
being undirected). -/
def adjS (G : SGraph V) (u v : V) : Prop :=
  (u, v) ∈ G.edges ∨ (v, u) ∈ G.edges

instance (G : SGraph V) (u v : V) : Decidable (adjS G u v) :=
  inferInstanceAs (Decidable ((u, v) ∈ G.edges ∨ (v, u) ∈ G.edges))

/-- Well-formedness that `networkx` guarantees by construction: the node
list has no duplicates (nodes are dict keys) and both endpoints of every
edge are nodes (`add_edges_from` inserts missing endpoints). -/
def WfS (G : SGraph V) : Prop :=
  G.nodes.Nodup ∧ ∀ e ∈ G.edges, e.1 ∈ G.nodes ∧ e.2 ∈ G.nodes

instance (G : SGraph V) : Decidable (WfS G) :=
  inferInstanceAs
    (Decidable (G.nodes.Nodup ∧ ∀ e ∈ G.edges, e.1 ∈ G.nodes ∧ e.2 ∈ G.nodes))

/-- `neighbors_sorted` (task_02_graph.py:107-109): the adjacency of
`node`, sorted in ascending identifier order. -/
def neighbors_sorted (G : SGraph V) (node : V) : List V :=
  List.insertionSort (· ≤ ·) (G.nodes.filter (fun u => decide (adjS G node u)))

/-- Parent maps: a Python dict from node to predecessor-or-`None`; the
outer `Option` is dict membership, the inner one is the `None` sentinel
of the start node. -/
abbrev PMap (V : Type) := V → Option (Option V)

/-- Following `parent` links (the `while cur is not None` loop inside
`reconstruct_path`), fuelled; `none` is a `KeyError` or exhausted fuel.
The accumulator collects the visited nodes goal-first. -/
def followP (parent : PMap V) : ℕ → V → List V → Option (List V)
  | 0, _, _ => none
  | fuel + 1, cur, acc =>
    match parent cur with
    | none => none
    | some none => some (acc ++ [cur])
    | some (some p) => followP parent fuel p (acc ++ [cur])

/-- `reconstruct_path` (task_02_graph.py:112-122): rebuild the path from
the parent map; empty when `goal` is not a key or the rebuilt sequence
does not begin with `start`. -/
def reconstruct_path (parent : PMap V) (start goal : V) (fuel : ℕ) :
    Option (List V) :=
  if (parent goal).isNone then some []
  else
    match followP parent fuel goal [] with
    | none => none
    | some rev =>
      let path := rev.reverse
      some (if path.head? = some start then path else [])

/-- The loop body of `bfs_path` after dequeuing `v`: walk the sorted
neighbors in ascending order, assigning parents to undiscovered ones and
appending them at the queue's tail. -/
def bfsStep (G : SGraph V) (v : V) (P : PMap V) (q : List V) :
    PMap V × List V :=
  (neighbors_sorted G v).foldl
    (fun s nb =>
      if (s.1 nb).isSome then s
      else (updF s.1 nb (some (some v)), s.2 ++ [nb]))
    (P, q)

/-- The loop body of `dfs_path` after popping `v`: walk the sorted
neighbors in descending order, pushing undiscovered ones onto the stack
(modelled head-first, so the Python list's last element is our head). -/
def dfsStep (G : SGraph V) (v : V) (P : PMap V) (st : List V) :
    PMap V × List V :=
  (neighbors_sorted G v).reverse.foldl
    (fun s nb =>
      if (s.1 nb).isSome then s
      else (updF s.1 nb (some (some v)), nb :: s.2))
    (P, st)

/-- The common frontier loop of `bfs_path`/`dfs_path` (they differ only
in the loop body `step`): remove the frontier's first element, record it
in the visit order, stop on `goal`, otherwise expand it.  The final
`none` branch is the `networkx` error raised by `G.neighbors` on a node
absent from the graph; the fuel-`0` branch never fires for the fuel the
entry points pass. -/
def searchAux (G : SGraph V) (step : V → PMap V → List V → PMap V × List V)
    (goal : V) : ℕ → PMap V → List V → List V → Option (PMap V × List V)
  | 0, _, _, _ => none
  | _ + 1, P, [], ord => some (P, ord)
  | fuel + 1, P, v :: q, ord =>
    if v = goal then some (P, ord ++ [v])
    else if v ∈ G.nodes then
      let s := step v P q
      searchAux G step goal fuel s.1 s.2 (ord ++ [v])
    else none

/-- `bfs_path` (task_02_graph.py:125-143): FIFO search from `start`,
returning the reconstructed path and the visit order; `none` models a
raised error. -/
def bfs_path (G : SGraph V) (start goal : V) :
    Option (List V × List V) :=
  match searchAux G (bfsStep G) goal (G.nodes.length + 2)
      (updF (fun _ => none) start (some none)) [start] [] with
  | none => none
  | some (P, ord) =>
    match reconstruct_path P start goal (G.nodes.length + 2) with
    | none => none
    | some p => some (p, ord)

/-- `dfs_path` (task_02_graph.py:146-165): LIFO search from `start`,
returning the reconstructed path and the visit order; `none` models a
raised error. -/
def dfs_path (G : SGraph V) (start goal : V) :
    Option (List V × List V) :=
  match searchAux G (dfsStep G) goal (G.nodes.length + 2)
      (updF (fun _ => none) start (some none)) [start] [] with
  | none => none
  | some (P, ord) =>
    match reconstruct_path P start goal (G.nodes.length + 2) with
    | none => none
    | some p => some (p, ord)

/-- `degree` of a node: the number of incident edges, a self-loop
counting twice (as `networkx` counts). -/
def degree (G : SGraph V) (v : V) : ℕ :=
  G.edges.countP (fun e => decide (e.1 = v)) +
    G.edges.countP (fun e => decide (e.2 = v))

/-- The average-degree computation of `analyze_graph`
(task_01_graph.py:77-88): `sum(degrees.values()) / n`.  On an empty
graph the Python division raises `ZeroDivisionError` (the design's
`EmptyGraph` failure), modelled by `none`. -/
def average_degree (G : SGraph V) : Option ℚ :=
  if G.nodes.length = 0 then none
  else some (((G.nodes.map (degree G)).sum : ℚ) / (G.nodes.length : ℚ))

/-- `add_edge_weights` (task_03_graph.py:78-83): derive each edge's
weight from its `speed_mbps` attribute; a speed below 1 is clamped
(`speed = max(speed, 1)`) and the weight is `1.0 / speed`. -/
def add_edge_weights (edges : List (V × V × ℤ)) : List (V × V × ℚ) :=
  edges.map (fun e => (e.1, e.2.1, 1 / ((max e.2.2 1 : ℤ) : ℚ)))

/-- The seventeen device identifiers of the reference topology.  The
source uses Python strings, compared lexicographically by the traversal
tie-breaks; the order below is exactly the lexicographic order of the
names (AP_1 < AP_2 < Camera_1 < Camera_2 < HomeServer < ISP < IoT_Hub <
Laptop_1 < Laptop_2 < NAS < PC < Phone_1 < Phone_2 < Printer < Router <
Switch < TV, uppercase sorting before lowercase as in Unicode), so the
embedding's comparisons agree with the source's. -/
inductive Device : Type
  | AP_1 | AP_2 | Camera_1 | Camera_2 | HomeServer | ISP | IoT_Hub
  | Laptop_1 | Laptop_2 | NAS | PC | Phone_1 | Phone_2 | Printer
  | Router | Switch | TV
deriving DecidableEq, Fintype, Repr

/-- Position of a device name in the lexicographic order of the names. -/
def Device.idx : Device → ℕ
  | .AP_1 => 0 | .AP_2 => 1 | .Camera_1 => 2 | .Camera_2 => 3
  | .HomeServer => 4 | .ISP => 5 | .IoT_Hub => 6 | .Laptop_1 => 7
  | .Laptop_2 => 8 | .NAS => 9 | .PC => 10 | .Phone_1 => 11
  | .Phone_2 => 12 | .Printer => 13 | .Router => 14 | .Switch => 15
  | .TV => 16

instance : LinearOrder Device where
  le a b := a.idx ≤ b.idx
  lt a b := a.idx < b.idx
  le_refl := by decide
  le_trans := by decide
  lt_iff_le_not_le := by decide
  le_antisymm := by decide
  le_total := by decide
  decidableLE a b := inferInstanceAs (Decidable (a.idx ≤ b.idx))
  decidableLT a b := inferInstanceAs (Decidable (a.idx < b.idx))
  decidableEq := instDecidableEqDevice

/-- `build_network_topology` (task_02_graph.py:15-74): the reference
17-node, 16-edge home/office topology (edge attributes dropped, as the
unweighted search ignores them). -/
def build_network_topology : SGraph Device :=
  { nodes :=
      [.ISP, .Router, .Switch, .AP_1, .AP_2, .NAS, .HomeServer,
       .Laptop_1, .Laptop_2, .PC, .Phone_1, .Phone_2, .TV,
       .Printer, .IoT_Hub, .Camera_1, .Camera_2]
    edges :=
      [(.ISP, .Router), (.Router, .Switch), (.Switch, .AP_1),
       (.Switch, .AP_2), (.Switch, .NAS), (.Switch, .HomeServer),
       (.Switch, .PC), (.Switch, .Printer), (.AP_1, .Laptop_1),
       (.AP_1, .Phone_1), (.AP_1, .TV), (.AP_2, .Laptop_2),
       (.AP_2, .Phone_2), (.AP_2, .IoT_Hub), (.IoT_Hub, .Camera_1),
       (.IoT_Hub, .Camera_2)] }

/-- `l` is a walk in `G`: nonempty, with consecutive elements adjacent. -/
def IsWalk (G : SGraph V) (l : List V) : Prop :=
  l ≠ [] ∧ l.Chain' (adjS G)

/-- `l` is a walk from `s` to `t` in `G`. -/
def WalkFT (G : SGraph V) (s t : V) (l : List V) : Prop :=
  IsWalk G l ∧ l.head? = some s ∧ l.getLast? = some t


/-- There is some walk from `s` to `t` in `G`. -/
def reachableS (G : SGraph V) (s t : V) : Prop :=
  ∃ l, WalkFT G s t l

/-- `t` can be reached from `s` in exactly `n` edge steps. -/
inductive Reach (G : SGraph V) : V → V → ℕ → Prop
  | refl (v : V) : Reach G v v 0
  | head {u v w : V} {n : ℕ} :
      adjS G u v → Reach G v w n → Reach G u w (n + 1)

/-- `l` is the chain of `parent` links from the root `start` down to `v`
(listed root-first): the spine of the search tree that
`reconstruct_path` rebuilds. -/
inductive Anc (P : PMap V) (start : V) : V → List V → Prop
  | root : P start = some none → Anc P start start [start]
  | step {u v : V} {l : List V} :
      Anc P start u l → P v = some (some u) → Anc P start v (l ++ [v])

/-- `v` carries label `n` in the search tree of `P`: its parent chain
has `n` edges. -/
def Lab (P : PMap V) (start v : V) (n : ℕ) : Prop :=
  ∃ l, Anc P start v l ∧ l.length = n + 1

/-- Assign parent `v` to every vertex of `new` at once: the net effect
of one BFS/DFS neighbor loop on the parent map. -/
def extendAll (P : PMap V) (v : V) (new : List V) : PMap V :=
  fun y => if y ∈ new then some (some v) else P y

/-- The undiscovered sorted neighbors of `v`: the vertices a BFS/DFS
expansion of `v` adds to the frontier. -/
def freshNbrs (G : SGraph V) (P : PMap V) (v : V) : List V :=
  (neighbors_sorted G v).filter (fun x => !(P x).isSome)

/-- Bookkeeping invariant of the shared search loop, tying the parent
map `P`, the frontier `q` and the visit order `ord` together. -/
structure SInv (G : SGraph V) (start : V) (P : PMap V) (q : List V)
    (ord : List V) : Prop where
  root : P start = some none
  keysIn : ∀ v, (P v).isSome → v = start ∨ v ∈ G.nodes
  padj : ∀ v u, P v = some (some u) → adjS G u v
  chains : ∀ v, (P v).isSome → ∃ l, Anc P start v l ∧ l.Nodup
  qKeys : ∀ v ∈ q, (P v).isSome
  ordKeys : ∀ v ∈ ord, (P v).isSome
  nd : (ord ++ q).Nodup
  cover : ∀ v, (P v).isSome → v ∈ ord ∨ v ∈ q
  expanded : ∀ v ∈ ord, ∀ y, adjS G v y → y ∈ G.nodes → (P y).isSome

/-- What holds of the parent map and visit order a finished search loop
returns. -/
structure SPost (G : SGraph V) (start goal : V) (ord0 q0 : List V)
    (out : PMap V × List V) : Prop where
  root : out.1 start = some none
  keysIn : ∀ v, (out.1 v).isSome → v = start ∨ v ∈ G.nodes
  padj : ∀ v u, out.1 v = some (some u) → adjS G u v
  chains : ∀ v, (out.1 v).isSome → ∃ l, Anc out.1 start v l ∧ l.Nodup
  ndOrd : out.2.Nodup
  headOrd : out.2.head? = (ord0 ++ q0).head?
  closedOrGoal : (out.1 goal).isSome ∨
    ∀ v, (out.1 v).isSome → ∀ y, adjS G v y → y ∈ G.nodes →
      (out.1 y).isSome

/-- The extra BFS invariant: frontier labels are non-decreasing and
spread over at most two consecutive layers, and every label is the true
edge distance (no shorter route to a discovered vertex exists). -/
structure BfsInv (G : SGraph V) (start : V) (P : PMap V) (q : List V)
    (ord : List V) extends SInv G start P q ord : Prop where
  layer : ∃ ql : List ℕ, List.Forall₂ (fun v n => Lab P start v n) q ql ∧
    ql.Chain' (· ≤ ·) ∧ ∀ a ∈ ql, ∀ b ∈ ql, a ≤ b + 1
  opt : ∀ v n, Lab P start v n → ∀ m, Reach G start v m → n ≤ m

/-! ### The weighted graph of `task_03_graph.py` -/

/-- Extended reals used for Dijkstra distances: Python's
`float("inf")` becomes `⊤`. -/
abbrev Qinf : Type := WithTop ℚ

/-- A weighted undirected `networkx` graph as `task_03_graph.py` uses
it after `add_edge_weights`: each edge carries its derived `weight`. -/
structure WGraph (V : Type) where
  nodes : List V
  edges : List (V × V × ℚ)

/-- Adjacency of the weighted graph. -/
def adjW (G : WGraph V) (u v : V) : Prop :=
  ∃ e ∈ G.edges, (e.1 = u ∧ e.2.1 = v) ∨ (e.1 = v ∧ e.2.1 = u)

/-- The `networkx` guarantees again: distinct nodes, endpoints present. -/
def WfW (G : WGraph V) : Prop :=
  G.nodes.Nodup ∧ ∀ e ∈ G.edges, e.1 ∈ G.nodes ∧ e.2.1 ∈ G.nodes

instance (G : WGraph V) : Decidable (WfW G) :=
  inferInstanceAs
    (Decidable (G.nodes.Nodup ∧
      ∀ e ∈ G.edges, e.1 ∈ G.nodes ∧ e.2.1 ∈ G.nodes))

/-- All edge weights are positive (`weight = 1/speed_mbps > 0` for the
graphs this program builds). -/
def PosW (G : WGraph V) : Prop :=
  ∀ e ∈ G.edges, 0 < e.2.2

/-- The neighbor list `G.neighbors(u)`: adjacency partners in edge
insertion order, as the `networkx` adjacency dict enumerates them. -/
def nbrsW (G : WGraph V) (u : V) : List V :=
  G.edges.filterMap (fun e =>
    if e.1 = u then some e.2.1 else if e.2.1 = u then some e.1 else none)

/-- The weight lookup `G.edges[u, v].get("weight", 1.0)`: the stored
weight of the edge joining `u` and `v`, defaulting to 1. -/
def wt (G : WGraph V) (u v : V) : ℚ :=
  match G.edges.find? (fun e =>
      decide ((e.1 = u ∧ e.2.1 = v) ∨ (e.1 = v ∧ e.2.1 = u))) with
  | some e => e.2.2
  | none => 1

/-- `heapq` push on `(distance, node)` pairs, modelled through the heap
contract: the queue is kept sorted in lexicographic tuple order, so its
head is always the exact tuple `heappop` would return. -/
def hpush (x : ℚ × V) : List (ℚ × V) → List (ℚ × V)
  | [] => [x]
  | y :: t =>
    if x.1 < y.1 ∨ (x.1 = y.1 ∧ x.2 ≤ y.2) then x :: y :: t
    else y :: hpush x t

/-- One relaxation of the edge from `u` (popped at distance `cur`) to
`v`: the body of the neighbor loop of `dijkstra_from_source`. -/
def relax (G : WGraph V) (u : V) (cur : ℚ)
    (s : (V → Qinf) × List (ℚ × V)) (v : V) :
    (V → Qinf) × List (ℚ × V) :=
  let nd := cur + wt G u v
  if (nd : Qinf) < s.1 v then (updF s.1 v (nd : Qinf), hpush (nd, v) s.2)
  else s

/-- The `while pq` loop of `dijkstra_from_source`
(task_03_graph.py:136-146), fuelled.  Stale entries (popped distance
above the recorded one) are skipped; otherwise every neighbor is
relaxed.  The final `none` models the `networkx` error `G.neighbors`
raises on an absent node, which never fires from the entry point. -/
def dijAux (G : WGraph V) : ℕ → (V → Qinf) → List (ℚ × V) →
    Option (V → Qinf)
  | 0, _, _ => none
  | _ + 1, dist, [] => some dist
  | fuel + 1, dist, (cur, u) :: pq =>
    if dist u < (cur : Qinf) then dijAux G fuel dist pq
    else if u ∈ G.nodes then
      let s := (nbrsW G u).foldl (relax G u cur) (dist, pq)
      dijAux G fuel s.1 s.2
    else none

/-- `dijkstra_from_source` (task_03_graph.py:129-148): all distances
start at infinity except `start` at 0, and the queue is seeded with
`(0, start)`. -/
def dijkstra_from_source (G : WGraph V) (start : V) : Option (V → Qinf) :=
  dijAux G (G.nodes.length * (G.edges.length + 1) + 2)
    (updF (fun _ => (⊤ : Qinf)) start (0 : Qinf)) [((0 : ℚ), start)]

/-- `all_pairs_shortest_distances` (task_03_graph.py:151-159): one
Dijkstra run per source node; sources outside the node list are not
keys of the resulting table. -/
def all_pairs_shortest_distances (G : WGraph V) (src : V) :
    Option (V → Qinf) :=
  if src ∈ G.nodes then dijkstra_from_source G src else none

/-- Weighted reachability: some walk from `u` to `w` costs exactly `c`
under the program's weight lookup. -/
inductive WReach (G : WGraph V) : V → V → ℚ → Prop
  | refl (v : V) : WReach G v v 0
  | head {u v w : V} {c : ℚ} :
      adjW G u v → WReach G v w c → WReach G u w (wt G u v + c)

/-- Some walk joins `s` to `t`. -/
def reachW (G : WGraph V) (s t : V) : Prop :=
  ∃ c, WReach G s t c

/-- `c` is the true shortest-path weight from `s` to `t`: attained by a
walk and no walk costs less. -/
def IsShortestW (G : WGraph V) (s t : V) (c : ℚ) : Prop :=
  WReach G s t c ∧ ∀ c', WReach G s t c' → c ≤ c'

/-- A vertex the Dijkstra loop is done with: its recorded distance
undercuts every walk from the source, and all its incident edges are
relaxed.  Used as the termination measure's progress witness. -/
def Settled (G : WGraph V) (start : V) (dist : V → Qinf) (v : V) : Prop :=
  (∀ c, WReach G start v c → dist v ≤ (c : Qinf)) ∧
    ∀ y ∈ nbrsW G v, dist y ≤ dist v + (wt G v y : Qinf)

/-- The Dijkstra loop invariant on the distance map and queue. -/
structure DijInv (G : WGraph V) (start : V) (dist : V → Qinf)
    (pq : List (ℚ × V)) : Prop where
  startZero : dist start = 0
  attained : ∀ v, dist v = ⊤ ∨ ∃ c : ℚ, dist v = (c : Qinf) ∧
    WReach G start v c
  qAtt : ∀ p ∈ pq, WReach G start p.2 p.1 ∧ dist p.2 ≤ (p.1 : Qinf) ∧
    p.2 ∈ G.nodes
  fresh : ∀ v, dist v ≠ ⊤ →
    (∃ c : ℚ, dist v = (c : Qinf) ∧ (c, v) ∈ pq) ∨
      ∀ y ∈ nbrsW G v, dist y ≤ dist v + (wt G v y : Qinf)
  sorted : pq.Pairwise (fun a b => a.1 ≤ b.1)

end NetGraph

namespace NetGraph

variable {V : Type} [LinearOrder V]

/-- **C4.** On the reference topology, `bfs_path("ISP", "Camera_1")`
returns exactly the path ISP, Router, Switch, AP_2, IoT_Hub, Camera_1
(5 edges), and `dfs_path` on the same endpoints returns the identical
path with the identical edge count (the topology being a tree). -/
theorem C4_reference_topology_paths :
    bfs_path build_network_topology .ISP .Camera_1 =
      some ([.ISP, .Router, .Switch, .AP_2, .IoT_Hub, .Camera_1],
        [.ISP, .Router, .Switch, .AP_1, .AP_2, .HomeServer, .NAS,
         .PC, .Printer, .Laptop_1, .Phone_1, .TV, .IoT_Hub,
         .Laptop_2, .Phone_2, .Camera_1]) ∧
    dfs_path build_network_topology .ISP .Camera_1 =
      some ([.ISP, .Router, .Switch, .AP_2, .IoT_Hub, .Camera_1],
        [.ISP, .Router, .Switch, .AP_1, .Laptop_1, .Phone_1, .TV,
         .AP_2, .IoT_Hub, .Camera_1]) ∧
    ([.ISP, .Router, .Switch, .AP_2, .IoT_Hub, .Camera_1] :
      List Device).length - 1 = 5 := by
  refine ⟨by decide, by decide, by decide⟩

/-- **C5 counterexample.** An edge entry with `speed_mbps = 0` is not
rejected: `add_edge_weights` succeeds and silently clamps the speed to 1,
deriving weight 1 — there is no `InvalidSpeed` failure anywhere in the
construction path. -/
theorem C5_counterexample_zero_speed_clamped :
    add_edge_weights [((Device.ISP, Device.Router, (0 : ℤ)))] =
      [(Device.ISP, Device.Router, (1 : ℚ))] := by
  unfold add_edge_weights
  norm_num

/-- **C5 (amended).** For every edge-list entry with `speed_mbps <= 0`,
graph construction does not fail: `add_edge_weights` clamps the speed to
1 before weight derivation, so the entry receives weight 1. -/
theorem C5_nonpositive_speed_clamped_to_weight_one (edges : List (V × V × ℤ))
    (e : V × V × ℤ) (he : e ∈ edges) (hs : e.2.2 ≤ 0) :
    (e.1, e.2.1, (1 : ℚ)) ∈ add_edge_weights edges := by
  unfold add_edge_weights
  have hmax : max e.2.2 1 = 1 := max_eq_right (by omega)
  refine List.mem_map.mpr ⟨e, he, ?_⟩
  rw [hmax]
  norm_num

theorem C5_nonpositive_speed_clamped_witness :
    ((Device.ISP, Device.Router, (0 : ℤ)).2.2 ≤ 0) ∧
      ((Device.ISP, Device.Router, (0 : ℤ)).1,
        (Device.ISP, Device.Router, (0 : ℤ)).2.1,
        (1 : ℚ)) ∈ add_edge_weights [(Device.ISP, Device.Router, (0 : ℤ))] :=
  ⟨by decide,
    C5_nonpositive_speed_clamped_to_weight_one
      [(Device.ISP, Device.Router, (0 : ℤ))] (Device.ISP, Device.Router, (0 : ℤ))
      (by decide) (by decide)⟩

/-- **C6 counterexample.** A goal absent from the graph does not make the
path query fail with an `UnknownNode` error: on the one-node graph
holding only ISP, querying a path from ISP to the absent node Router
succeeds with an empty path for both BFS and DFS. -/
theorem C6_counterexample_absent_goal_is_no_error :
    bfs_path (SGraph.mk [Device.ISP] []) .ISP .Router =
        some ([], [.ISP]) ∧
      dfs_path (SGraph.mk [Device.ISP] []) .ISP .Router =
        some ([], [.ISP]) := by
  refine ⟨by decide, by decide⟩

/-! ### Parent chains -/

theorem anc_ne_nil {P : PMap V} {start v : V} {l : List V}
    (h : Anc P start v l) : l ≠ [] := by
  cases h <;> simp

theorem anc_head {P : PMap V} {start v : V} {l : List V}
    (h : Anc P start v l) : l.head? = some start := by
  induction h with
  | root _ => rfl
  | step h _ ih =>
    rcases List.exists_cons_of_ne_nil (anc_ne_nil h) with ⟨a, t, rfl⟩
    simpa using ih

theorem anc_last {P : PMap V} {start v : V} {l : List V}
    (h : Anc P start v l) : l.getLast? = some v := by
  induction h with
  | root _ => rfl
  | step _ _ _ => simp

theorem anc_key_self {P : PMap V} {start v : V} {l : List V}
    (h : Anc P start v l) : (P v).isSome := by
  cases h with
  | root hr => simp [hr]
  | step _ hv => simp [hv]

theorem anc_keys {P : PMap V} {start v : V} {l : List V}
    (h : Anc P start v l) : ∀ x ∈ l, (P x).isSome := by
  induction h with
  | root hr => intro x hx; simp at hx; simp [hx, hr]
  | step _ hv ih =>
    intro x hx
    rcases List.mem_append.mp hx with hx | hx
    · exact ih x hx
    · simp at hx; simp [hx, hv]

theorem anc_unique {P : PMap V} {start v : V} {l₁ l₂ : List V}
    (h₁ : Anc P start v l₁) (h₂ : Anc P start v l₂) : l₁ = l₂ := by
  induction h₁ generalizing l₂ with
  | root hr =>
    cases h₂ with
    | root _ => rfl
    | step _ hv => rw [hr] at hv; cases hv
  | step h₁' hv ih =>
    cases h₂ with
    | root hr => rw [hr] at hv; cases hv
    | step h₂' hv₂ =>
      rw [hv] at hv₂
      injection hv₂ with h
      injection h with h2
      subst h2
      rw [ih h₂']

theorem lab_unique {P : PMap V} {start v : V} {n m : ℕ}
    (h₁ : Lab P start v n) (h₂ : Lab P start v m) : n = m := by
  obtain ⟨l₁, ha₁, hl₁⟩ := h₁
  obtain ⟨l₂, ha₂, hl₂⟩ := h₂
  obtain rfl := anc_unique ha₁ ha₂
  omega

theorem anc_preserved {P P' : PMap V} {start v : V} {l : List V}
    (hkeep : ∀ x, (P x).isSome → P' x = P x) (h : Anc P start v l) :
    Anc P' start v l := by
  induction h with
  | root hr => exact Anc.root (by rw [hkeep start (by simp [hr]), hr])
  | step _ hv ih => exact Anc.step ih (by rw [hkeep _ (by simp [hv]), hv])

theorem anc_walk {G : SGraph V} {P : PMap V} {start v : V} {l : List V}
    (hpadj : ∀ v u, P v = some (some u) → adjS G u v)
    (h : Anc P start v l) : WalkFT G start v l := by
  induction h with
  | root _ => exact ⟨⟨by simp, by simp⟩, rfl, rfl⟩
  | step h hv ih =>
    obtain ⟨⟨hne, hch⟩, hhd, hlast⟩ := ih
    refine ⟨⟨by simp, ?_⟩, ?_, by simp⟩
    · refine List.Chain'.append hch (by simp) ?_
      intro x hx y hy
      simp at hy
      rw [hlast] at hx
      simp at hx
      subst hx
      subst hy
      exact hpadj _ _ hv
    · rcases List.exists_cons_of_ne_nil hne with ⟨a, t, rfl⟩
      simpa using hhd

/-! ### Conversions between walks and step-counted reachability -/

theorem reach_snoc {G : SGraph V} {s u v : V} {n : ℕ}
    (h : Reach G s u n) (hadj : adjS G u v) : Reach G s v (n + 1) := by
  induction h with
  | refl _ => exact Reach.head hadj (Reach.refl v)
  | head ha _ ih => exact Reach.head ha (ih hadj)

theorem walkFT_reach {G : SGraph V} {s t : V} {l : List V}
    (h : WalkFT G s t l) : Reach G s t (l.length - 1) := by
  induction l generalizing s with
  | nil => exact absurd rfl h.1.1
  | cons x rest ih =>
    obtain ⟨⟨_, hch⟩, hhd, hlast⟩ := h
    have hsx : x = s := by simpa using hhd
    subst hsx
    cases rest with
    | nil =>
      have htx : t = x := by simpa using hlast.symm
      subst htx
      exact Reach.refl t
    | cons y rest' =>
      rw [List.chain'_cons] at hch
      have hr : Reach G y t ((y :: rest').length - 1) :=
        ih ⟨⟨by simp, hch.2⟩, rfl, by simpa using hlast⟩
      have := Reach.head hch.1 hr
      simpa using this

theorem reach_walkFT {G : SGraph V} {s t : V} {n : ℕ}
    (h : Reach G s t n) : ∃ l, WalkFT G s t l ∧ l.length = n + 1 := by
  induction h with
  | refl v => exact ⟨[v], ⟨⟨by simp, by simp⟩, rfl, rfl⟩, rfl⟩
  | head ha _ ih =>
    obtain ⟨l, ⟨⟨hne, hch⟩, hhd, hlast⟩, hlen⟩ := ih
    rcases List.exists_cons_of_ne_nil hne with ⟨a, rest, rfl⟩
    simp only [List.head?_cons, Option.some.injEq] at hhd
    subst hhd
    refine ⟨_ :: a :: rest,
      ⟨⟨by simp, List.chain'_cons.mpr ⟨ha, hch⟩⟩, rfl,
        by simpa using hlast⟩,
      by simpa using hlen⟩

theorem reachableS_iff {G : SGraph V} {s t : V} :
    reachableS G s t ↔ ∃ n, Reach G s t n := by
  constructor
  · rintro ⟨l, hl⟩
    exact ⟨_, walkFT_reach hl⟩
  · rintro ⟨n, hn⟩
    obtain ⟨l, hl, _⟩ := reach_walkFT hn
    exact ⟨l, hl⟩

theorem anc_lab {P : PMap V} {start v : V} {l : List V}
    (h : Anc P start v l) : Lab P start v (l.length - 1) := by
  refine ⟨l, h, ?_⟩
  have := anc_ne_nil h
  have : 0 < l.length := List.length_pos.mpr this
  omega

/-! ### Path reconstruction -/

theorem followP_anc {P : PMap V} {start v : V} {l : List V}
    (h : Anc P start v l) :
    ∀ (acc : List V) (fuel : ℕ), l.length ≤ fuel →
      followP P fuel v acc = some (acc ++ l.reverse) := by
  induction h with
  | root hr =>
    intro acc fuel hf
    cases fuel with
    | zero => simp at hf
    | succ f => simp [followP, hr]
  | @step u v l h hv ih =>
    intro acc fuel hf
    cases fuel with
    | zero => simp at hf
    | succ f =>
      have hlen : l.length ≤ f := by
        rw [List.length_append, List.length_singleton] at hf
        omega
      simp only [followP, hv]
      rw [ih (acc ++ [v]) f hlen]
      simp

theorem reconstruct_anc {P : PMap V} {start goal : V} {l : List V}
    {fuel : ℕ} (h : Anc P start goal l) (hf : l.length ≤ fuel) :
    reconstruct_path P start goal fuel = some l := by
  unfold reconstruct_path
  have hkey := anc_key_self h
  rw [if_neg (by simp [Option.isNone_iff_eq_none]; rintro hP; simp [hP] at hkey)]
  rw [followP_anc h [] fuel hf]
  simp [anc_head h]

theorem reconstruct_no_key {P : PMap V} {start goal : V} {fuel : ℕ}
    (h : P goal = none) :
    reconstruct_path P start goal fuel = some [] := by
  simp [reconstruct_path, h]

theorem reconstruct_shape {P : PMap V} {start goal : V} {fuel : ℕ}
    {r : List V} (h : reconstruct_path P start goal fuel = some r) :
    r = [] ∨ r.head? = some start := by
  unfold reconstruct_path at h
  split at h
  · simp at h; exact Or.inl h
  · split at h
    · cases h
    · simp only [Option.some.injEq] at h
      subst h
      split
      · right; assumption
      · left; rfl

/-! ### Neighbor lists and the shape of one expansion step -/

theorem mem_neighbors_sorted {G : SGraph V} {v x : V} :
    x ∈ neighbors_sorted G v ↔ x ∈ G.nodes ∧ adjS G v x := by
  unfold neighbors_sorted
  rw [List.mem_insertionSort]
  simp [List.mem_filter]

theorem neighbors_sorted_nodup {G : SGraph V} (hnd : G.nodes.Nodup)
    (v : V) : (neighbors_sorted G v).Nodup := by
  unfold neighbors_sorted
  exact ((List.perm_insertionSort _ _).nodup_iff).mpr (hnd.filter _)

theorem extendAll_mem {P : PMap V} {v : V} {new : List V} {y : V}
    (hy : y ∈ new) : extendAll P v new y = some (some v) := by
  unfold extendAll; rw [if_pos hy]

theorem extendAll_not_mem {P : PMap V} {v : V} {new : List V} {y : V}
    (hy : y ∉ new) : extendAll P v new y = P y := by
  unfold extendAll; rw [if_neg hy]

theorem extendAll_isSome {P : PMap V} {v : V} {new : List V} {y : V} :
    ((extendAll P v new) y).isSome ↔ y ∈ new ∨ (P y).isSome := by
  unfold extendAll
  split
  · simp_all
  · simp_all

theorem extendAll_keep {P : PMap V} {v : V} {new : List V}
    (hnew : ∀ x ∈ new, P x = none) :
    ∀ x, (P x).isSome → extendAll P v new x = P x := by
  intro x hx
  unfold extendAll
  split
  · next hmem => rw [hnew x hmem] at hx; simp at hx
  · rfl

theorem mem_freshNbrs {G : SGraph V} {P : PMap V} {v x : V} :
    x ∈ freshNbrs G P v ↔ (x ∈ G.nodes ∧ adjS G v x) ∧ P x = none := by
  unfold freshNbrs
  rw [List.mem_filter, mem_neighbors_sorted]
  simp [Option.not_isSome_iff_eq_none]

theorem freshNbrs_nodup {G : SGraph V} {P : PMap V} (hnd : G.nodes.Nodup)
    (v : V) : (freshNbrs G P v).Nodup :=
  (neighbors_sorted_nodup hnd v).filter _

theorem bfs_fold_eq {v : V} (ns : List V) (hnd : ns.Nodup)
    (P : PMap V) (q : List V) :
    ns.foldl (fun s nb => if (s.1 nb).isSome then s
      else (updF s.1 nb (some (some v)), s.2 ++ [nb])) (P, q) =
    (extendAll P v (ns.filter (fun x => !(P x).isSome)),
      q ++ ns.filter (fun x => !(P x).isSome)) := by
  induction ns generalizing P q with
  | nil =>
    simp only [List.foldl_nil, List.filter_nil, List.append_nil]
    refine Prod.ext ?_ rfl
    funext y
    simp [extendAll]
  | cons a t ih =>
    have hat : a ∉ t := (List.nodup_cons.mp hnd).1
    have htnd : t.Nodup := (List.nodup_cons.mp hnd).2
    by_cases ha : (P a).isSome
    · have hfil : (a :: t).filter (fun x => !(P x).isSome) =
          t.filter (fun x => !(P x).isSome) := by
        simp only [List.filter_cons]
        rw [if_neg (by simp [ha])]
      rw [hfil, List.foldl_cons, if_pos ha, ih htnd]
    · have hPa : P a = none := Option.not_isSome_iff_eq_none.mp ha
      have hfil : (a :: t).filter (fun x => !(P x).isSome) =
          a :: t.filter (fun x => !(P x).isSome) := by
        simp only [List.filter_cons]
        rw [if_pos (by simp [hPa])]
      rw [hfil, List.foldl_cons, if_neg ha, ih htnd]
      dsimp only
      have hcongr : t.filter (fun x => !((updF P a (some (some v))) x).isSome)
          = t.filter (fun x => !(P x).isSome) := by
        apply List.filter_congr
        intro x hx
        have hxa : x ≠ a := fun h => hat (h ▸ hx)
        simp [updF, hxa]
      rw [hcongr]
      refine Prod.ext ?_ (by simp)
      dsimp only
      funext y
      by_cases hyf : y ∈ t.filter (fun x => !(P x).isSome)
      · rw [extendAll_mem hyf, extendAll_mem (List.mem_cons_of_mem a hyf)]
      · by_cases hya : y = a
        · subst hya
          rw [extendAll_not_mem hyf, extendAll_mem (List.mem_cons_self _ _), updF,
            if_pos rfl]
        · have hynotin : y ∉ a :: t.filter (fun x => !(P x).isSome) := by
            intro h
            rcases List.mem_cons.mp h with h | h
            · exact hya h
            · exact hyf h
          rw [extendAll_not_mem hyf, extendAll_not_mem hynotin, updF,
            if_neg hya]

theorem dfs_fold_eq {v : V} (ns : List V) (hnd : ns.Nodup)
    (P : PMap V) (st : List V) :
    ns.reverse.foldl (fun s nb => if (s.1 nb).isSome then s
      else (updF s.1 nb (some (some v)), nb :: s.2)) (P, st) =
    (extendAll P v (ns.filter (fun x => !(P x).isSome)),
      ns.filter (fun x => !(P x).isSome) ++ st) := by
  rw [List.foldl_reverse]
  induction ns with
  | nil =>
    simp only [List.foldr_nil, List.filter_nil, List.nil_append]
    refine Prod.ext ?_ rfl
    funext y
    simp [extendAll]
  | cons a t ih =>
    have hat : a ∉ t := (List.nodup_cons.mp hnd).1
    have htnd : t.Nodup := (List.nodup_cons.mp hnd).2
    rw [List.foldr_cons, ih htnd]
    have hmemEq : ((extendAll P v (t.filter (fun x => !(P x).isSome))) a).isSome
        = (P a).isSome := by
      have : a ∉ t.filter (fun x => !(P x).isSome) := fun h =>
        hat (List.mem_of_mem_filter h)
      rw [extendAll_not_mem this]
    by_cases ha : (P a).isSome
    · have hfil : (a :: t).filter (fun x => !(P x).isSome) =
          t.filter (fun x => !(P x).isSome) := by
        simp only [List.filter_cons]
        rw [if_neg (by simp [ha])]
      rw [hfil]
      dsimp only
      rw [hmemEq, if_pos ha]
    · have hPa : P a = none := Option.not_isSome_iff_eq_none.mp ha
      have hfil : (a :: t).filter (fun x => !(P x).isSome) =
          a :: t.filter (fun x => !(P x).isSome) := by
        simp only [List.filter_cons]
        rw [if_pos (by simp [hPa])]
      rw [hfil]
      dsimp only
      rw [hmemEq, if_neg ha]
      refine Prod.ext ?_ (by simp)
      dsimp only
      funext y
      by_cases hyf : y ∈ t.filter (fun x => !(P x).isSome)
      · rw [updF]
        have hyx : y ≠ a := fun h =>
          hat (List.mem_of_mem_filter (h ▸ hyf))
        rw [if_neg hyx, extendAll_mem hyf,
          extendAll_mem (List.mem_cons_of_mem a hyf)]
      · by_cases hya : y = a
        · subst hya
          rw [updF, if_pos rfl, extendAll_mem (List.mem_cons_self _ _)]
        · have hynotin : y ∉ a :: t.filter (fun x => !(P x).isSome) := by
            intro h
            rcases List.mem_cons.mp h with h | h
            · exact hya h
            · exact hyf h
          rw [updF, if_neg hya, extendAll_not_mem hyf,
            extendAll_not_mem hynotin]

theorem bfsStep_eq {G : SGraph V} (hnd : G.nodes.Nodup) (v : V)
    (P : PMap V) (q : List V) :
    bfsStep G v P q =
      (extendAll P v (freshNbrs G P v), q ++ freshNbrs G P v) := by
  unfold bfsStep freshNbrs
  exact bfs_fold_eq _ (neighbors_sorted_nodup hnd v) P q

theorem dfsStep_eq {G : SGraph V} (hnd : G.nodes.Nodup) (v : V)
    (P : PMap V) (st : List V) :
    dfsStep G v P st =
      (extendAll P v (freshNbrs G P v), freshNbrs G P v ++ st) := by
  unfold dfsStep freshNbrs
  exact dfs_fold_eq _ (neighbors_sorted_nodup hnd v) P st

/-! ### Maintenance of the search bookkeeping invariant -/

theorem SInv.expandPreserved {G : SGraph V} {start v : V} {P : PMap V}
    {q ord : List V} (inv : SInv G start P (v :: q) ord)
    (hv : v ∈ G.nodes) (hnd : G.nodes.Nodup) {q' : List V}
    (hq' : q'.Perm (q ++ freshNbrs G P v)) :
    SInv G start (extendAll P v (freshNbrs G P v)) q' (ord ++ [v]) := by
  set F := freshNbrs G P v with hF
  have hFun : ∀ x ∈ F, P x = none := fun x hx => (mem_freshNbrs.mp hx).2
  have hFnodes : ∀ x ∈ F, x ∈ G.nodes := fun x hx =>
    (mem_freshNbrs.mp hx).1.1
  have hFadj : ∀ x ∈ F, adjS G v x := fun x hx =>
    (mem_freshNbrs.mp hx).1.2
  have hkeep := extendAll_keep (P := P) (v := v) hFun
  have hFnd : F.Nodup := freshNbrs_nodup hnd v
  have hvKey : (P v).isSome := inv.qKeys v (List.mem_cons_self _ _)
  have hSome : ∀ x, ((extendAll P v F) x).isSome ↔ x ∈ F ∨ (P x).isSome :=
    fun x => extendAll_isSome
  refine ⟨?_, ?_, ?_, ?_, ?_, ?_, ?_, ?_, ?_⟩
  · rw [hkeep start (by simp [inv.root]), inv.root]
  · intro x hx
    rcases (hSome x).mp hx with hxF | hxP
    · exact Or.inr (hFnodes x hxF)
    · exact inv.keysIn x hxP
  · intro x u hxu
    by_cases hxF : x ∈ F
    · rw [extendAll_mem hxF] at hxu
      injection hxu with h
      injection h with h
      subst h
      exact hFadj x hxF
    · rw [extendAll_not_mem hxF] at hxu
      exact inv.padj x u hxu
  · intro x hx
    rcases (hSome x).mp hx with hxF | hxP
    · obtain ⟨l, hl, hlnd⟩ := inv.chains v hvKey
      refine ⟨l ++ [x], Anc.step (anc_preserved hkeep hl)
        (extendAll_mem hxF), ?_⟩
      have hxl : x ∉ l := fun hmem => by
        have := anc_keys hl x hmem
        rw [hFun x hxF] at this
        simp at this
      simp [List.nodup_append, hlnd, hxl]
    · obtain ⟨l, hl, hlnd⟩ := inv.chains x hxP
      exact ⟨l, anc_preserved hkeep hl, hlnd⟩
  · intro x hx
    rcases List.mem_append.mp (hq'.mem_iff.mp hx) with hxq | hxF
    · exact (hSome x).mpr (Or.inr (inv.qKeys x (List.mem_cons_of_mem _ hxq)))
    · exact (hSome x).mpr (Or.inl hxF)
  · intro x hx
    rcases List.mem_append.mp hx with hxo | hxv
    · exact (hSome x).mpr (Or.inr (inv.ordKeys x hxo))
    · simp at hxv
      subst hxv
      exact (hSome x).mpr (Or.inr hvKey)
  · have hperm : ((ord ++ [v]) ++ q').Perm ((ord ++ v :: q) ++ F) := by
      calc ((ord ++ [v]) ++ q').Perm ((ord ++ [v]) ++ (q ++ F)) :=
            hq'.append_left _
        _ = (ord ++ v :: q) ++ F := by simp
    rw [hperm.nodup_iff]
    rw [List.nodup_append]
    refine ⟨inv.nd, hFnd, ?_⟩
    intro x hxl hxF
    have hkeyed : (P x).isSome := by
      rcases List.mem_append.mp hxl with hxo | hxq
      · exact inv.ordKeys x hxo
      · exact inv.qKeys x hxq
    rw [hFun x hxF] at hkeyed
    simp at hkeyed
  · intro x hx
    rcases (hSome x).mp hx with hxF | hxP
    · exact Or.inr (hq'.mem_iff.mpr (List.mem_append.mpr (Or.inr hxF)))
    · rcases inv.cover x hxP with hxo | hxq
      · exact Or.inl (List.mem_append.mpr (Or.inl hxo))
      · rcases List.mem_cons.mp hxq with rfl | hxq'
        · exact Or.inl (List.mem_append.mpr (Or.inr (by simp)))
        · exact Or.inr (hq'.mem_iff.mpr (List.mem_append.mpr (Or.inl hxq')))
  · intro w hw y hadj hy
    rcases List.mem_append.mp hw with hwo | hwv
    · exact (hSome y).mpr (Or.inr (inv.expanded w hwo y hadj hy))
    · simp at hwv
      subst hwv
      by_cases hyP : (P y).isSome
      · exact (hSome y).mpr (Or.inr hyP)
      · exact (hSome y).mpr (Or.inl (mem_freshNbrs.mpr
          ⟨⟨hy, hadj⟩, Option.not_isSome_iff_eq_none.mp hyP⟩))

theorem head?_append_fixed (ord : List V) (v : V) (q X : List V) :
    ((ord ++ [v]) ++ X).head? = (ord ++ v :: q).head? := by
  cases ord <;> simp

theorem initial_SInv (G : SGraph V) (start : V) :
    SInv G start (updF (fun _ => none) start (some none)) [start] [] := by
  have hP : ∀ x, ((updF (fun _ => none) start (some none) : PMap V) x).isSome →
      x = start := by
    intro x hx
    by_cases h : x = start
    · exact h
    · rw [updF, if_neg h] at hx; simp at hx
  refine ⟨by simp [updF], ?_, ?_, ?_, ?_, ?_, by simp, ?_, ?_⟩
  · intro x hx
    exact Or.inl (hP x hx)
  · intro x u hxu
    by_cases h : x = start
    · subst h; rw [updF, if_pos rfl] at hxu; cases hxu
    · rw [updF, if_neg h] at hxu; cases hxu
  · intro x hx
    obtain rfl := hP x hx
    exact ⟨[x], Anc.root (by simp [updF]), by simp⟩
  · intro x hx
    simp at hx
    subst hx
    simp [updF]
  · intro x hx
    simp at hx
  · intro x hx
    exact Or.inr (by simp [hP x hx])
  · intro w hw
    simp at hw

theorem searchAux_sound {G : SGraph V} {start : V}
    (hnd : G.nodes.Nodup) (hstart : start ∈ G.nodes) (goal : V)
    (step : V → PMap V → List V → PMap V × List V)
    (hstep : ∀ v P q, v ∈ G.nodes →
      (step v P q).1 = extendAll P v (freshNbrs G P v) ∧
        (step v P q).2.Perm (q ++ freshNbrs G P v)) :
    ∀ fuel (P : PMap V) (q ord : List V), SInv G start P q ord →
      G.nodes.length + 2 ≤ fuel + ord.length →
      ∃ out, searchAux G step goal fuel P q ord = some out ∧
        SPost G start goal ord q out := by
  intro fuel
  induction fuel with
  | zero =>
    intro P q ord inv hfuel
    exfalso
    have hordnd : ord.Nodup := inv.nd.of_append_left
    have hsub : ord ⊆ start :: G.nodes := by
      intro x hx
      rcases inv.keysIn x (inv.ordKeys x hx) with rfl | h
      · exact List.mem_cons_self _ _
      · exact List.mem_cons_of_mem _ h
    have hlen : ord.length ≤ G.nodes.length + 1 := by
      have := (hordnd.subperm hsub).length_le
      simpa using this
    omega
  | succ f ih =>
    intro P q ord inv hfuel
    cases q with
    | nil =>
      refine ⟨(P, ord), by simp [searchAux], ?_⟩
      refine ⟨inv.root, inv.keysIn, inv.padj, inv.chains, ?_, by simp, ?_⟩
      · have := inv.nd
        simpa using this
      · refine Or.inr ?_
        intro x hx y hadj hy
        rcases inv.cover x hx with hxo | hxq
        · exact inv.expanded x hxo y hadj hy
        · simp at hxq
    | cons v q =>
      by_cases hvg : v = goal
      · subst hvg
        refine ⟨(P, ord ++ [v]), by simp [searchAux], ?_⟩
        refine ⟨inv.root, inv.keysIn, inv.padj, inv.chains, ?_, ?_, ?_⟩
        · exact inv.nd.sublist
            (List.Sublist.append_left (by simp) ord)
        · cases ord <;> simp
        · exact Or.inl (inv.qKeys v (List.mem_cons_self _ _))
      · have hv : v ∈ G.nodes := by
          rcases inv.keysIn v (inv.qKeys v (List.mem_cons_self _ _)) with
            rfl | h
          · exact hstart
          · exact h
        obtain ⟨hs1, hs2⟩ := hstep v P q hv
        have inv' : SInv G start (step v P q).1 (step v P q).2
            (ord ++ [v]) := by
          rw [hs1]
          exact inv.expandPreserved hv hnd hs2
        have hfuel' : G.nodes.length + 2 ≤ f + (ord ++ [v]).length := by
          simp only [List.length_append, List.length_singleton]
          omega
        obtain ⟨out, hout, hpost⟩ := ih _ _ _ inv' hfuel'
        refine ⟨out, ?_, ?_⟩
        · simp only [searchAux, if_neg hvg, if_pos hv]
          exact hout
        · refine ⟨hpost.root, hpost.keysIn, hpost.padj, hpost.chains,
            hpost.ndOrd, ?_, hpost.closedOrGoal⟩
          rw [hpost.headOrd]
          exact head?_append_fixed ord v q _

/-! ### Entry-point behaviour of the two searches -/

theorem searchAux_pop_goal (G : SGraph V)
    (step : V → PMap V → List V → PMap V × List V) (goal : V) (fuel : ℕ)
    (P : PMap V) (q ord : List V) :
    searchAux G step goal (fuel + 1) P (goal :: q) ord =
      some (P, ord ++ [goal]) := by
  simp [searchAux]

theorem searchAux_absent (G : SGraph V)
    (step : V → PMap V → List V → PMap V × List V) {goal v : V} (fuel : ℕ)
    (P : PMap V) (q ord : List V) (hvg : v ≠ goal) (hv : v ∉ G.nodes) :
    searchAux G step goal (fuel + 1) P (v :: q) ord = none := by
  simp [searchAux, hvg, hv]

theorem bfs_path_self (G : SGraph V) (v : V) :
    bfs_path G v v = some ([v], [v]) := by
  unfold bfs_path
  rw [show G.nodes.length + 2 = G.nodes.length + 1 + 1 from rfl]
  rw [searchAux_pop_goal]
  dsimp only
  rw [reconstruct_anc
    (Anc.root (P := updF (fun _ => none) v (some none)) (by simp [updF]))
    (by simp)]
  simp

theorem dfs_path_self (G : SGraph V) (v : V) :
    dfs_path G v v = some ([v], [v]) := by
  unfold dfs_path
  rw [show G.nodes.length + 2 = G.nodes.length + 1 + 1 from rfl]
  rw [searchAux_pop_goal]
  dsimp only
  rw [reconstruct_anc
    (Anc.root (P := updF (fun _ => none) v (some none)) (by simp [updF]))
    (by simp)]
  simp

theorem bfs_path_spec (G : SGraph V) (start goal : V) (hwf : WfS G)
    (hs : start ∈ G.nodes) :
    ∃ p ord, bfs_path G start goal = some (p, ord) ∧
      ord.head? = some start ∧ ord.Nodup ∧
      (¬ reachableS G start goal → p = []) := by
  obtain ⟨out, hout, hpost⟩ := searchAux_sound hwf.1 hs goal (bfsStep G)
    (fun v P q hv => by
      rw [bfsStep_eq hwf.1]
      exact ⟨rfl, List.Perm.refl _⟩)
    (G.nodes.length + 2) _ _ _ (initial_SInv G start) (by simp)
  obtain ⟨P, ordv⟩ := out
  have hhead : ordv.head? = some start := by
    have := hpost.headOrd
    simpa using this
  by_cases hkey : (P goal).isSome
  · obtain ⟨l, hanc, hlnd⟩ := hpost.chains goal hkey
    have hlen : l.length ≤ G.nodes.length + 2 := by
      have hsub : l ⊆ start :: G.nodes := fun x hx => by
        rcases hpost.keysIn x (anc_keys hanc x hx) with rfl | h
        · exact List.mem_cons_self _ _
        · exact List.mem_cons_of_mem _ h
      have := (hlnd.subperm hsub).length_le
      simp at this
      omega
    refine ⟨l, ordv, ?_, hhead, hpost.ndOrd, ?_⟩
    · unfold bfs_path
      rw [hout]
      dsimp only
      rw [reconstruct_anc hanc hlen]
    · intro hnr
      exact absurd ⟨l, anc_walk hpost.padj hanc⟩ hnr
  · have hnone : P goal = none := Option.not_isSome_iff_eq_none.mp hkey
    refine ⟨[], ordv, ?_, hhead, hpost.ndOrd, fun _ => rfl⟩
    unfold bfs_path
    rw [hout]
    dsimp only
    rw [reconstruct_no_key hnone]

theorem dfs_path_spec (G : SGraph V) (start goal : V) (hwf : WfS G)
    (hs : start ∈ G.nodes) :
    ∃ p ord, dfs_path G start goal = some (p, ord) ∧
      ord.head? = some start ∧ ord.Nodup ∧
      (¬ reachableS G start goal → p = []) := by
  obtain ⟨out, hout, hpost⟩ := searchAux_sound hwf.1 hs goal (dfsStep G)
    (fun v P q hv => by
      rw [dfsStep_eq hwf.1]
      exact ⟨rfl, List.perm_append_comm⟩)
    (G.nodes.length + 2) _ _ _ (initial_SInv G start) (by simp)
  obtain ⟨P, ordv⟩ := out
  have hhead : ordv.head? = some start := by
    have := hpost.headOrd
    simpa using this
  by_cases hkey : (P goal).isSome
  · obtain ⟨l, hanc, hlnd⟩ := hpost.chains goal hkey
    have hlen : l.length ≤ G.nodes.length + 2 := by
      have hsub : l ⊆ start :: G.nodes := fun x hx => by
        rcases hpost.keysIn x (anc_keys hanc x hx) with rfl | h
        · exact List.mem_cons_self _ _
        · exact List.mem_cons_of_mem _ h
      have := (hlnd.subperm hsub).length_le
      simp at this
      omega
    refine ⟨l, ordv, ?_, hhead, hpost.ndOrd, ?_⟩
    · unfold dfs_path
      rw [hout]
      dsimp only
      rw [reconstruct_anc hanc hlen]
    · intro hnr
      exact absurd ⟨l, anc_walk hpost.padj hanc⟩ hnr
  · have hnone : P goal = none := Option.not_isSome_iff_eq_none.mp hkey
    refine ⟨[], ordv, ?_, hhead, hpost.ndOrd, fun _ => rfl⟩
    unfold dfs_path
    rw [hout]
    dsimp only
    rw [reconstruct_no_key hnone]

theorem bfs_path_absent_start (G : SGraph V) {start goal : V}
    (hs : start ∉ G.nodes) (hsg : start ≠ goal) :
    bfs_path G start goal = none := by
  unfold bfs_path
  rw [show G.nodes.length + 2 = G.nodes.length + 1 + 1 from rfl]
  rw [searchAux_absent G _ _ _ _ _ hsg hs]

theorem dfs_path_absent_start (G : SGraph V) {start goal : V}
    (hs : start ∉ G.nodes) (hsg : start ≠ goal) :
    dfs_path G start goal = none := by
  unfold dfs_path
  rw [show G.nodes.length + 2 = G.nodes.length + 1 + 1 from rfl]
  rw [searchAux_absent G _ _ _ _ _ hsg hs]

theorem not_reachableS_of_no_edges {G : SGraph V} (h : G.edges = [])
    {s t : V} (hne : s ≠ t) : ¬ reachableS G s t := by
  rintro ⟨l, ⟨⟨hnil, hch⟩, hhd, hlast⟩⟩
  cases l with
  | nil => exact hnil rfl
  | cons a t' =>
    cases t' with
    | nil =>
      simp at hhd hlast
      exact hne (by rw [← hhd, ← hlast])
    | cons b t'' =>
      rw [List.chain'_cons] at hch
      rcases hch.1 with hm | hm <;> simp [h] at hm

/-! ### BFS layering: frontier labels are exact distances -/

theorem adjS_mem_right {G : SGraph V} (hwf : WfS G) {a b : V}
    (h : adjS G a b) : b ∈ G.nodes := by
  rcases h with h | h
  · exact ((hwf.2 _ h).2 : _)
  · exact ((hwf.2 _ h).1 : _)

theorem lab_preserved {P P' : PMap V} {start z : V} {b : ℕ}
    (hkeep : ∀ x, (P x).isSome → P' x = P x) (h : Lab P start z b) :
    Lab P' start z b := by
  obtain ⟨l, hanc, hlen⟩ := h
  exact ⟨l, anc_preserved hkeep hanc, hlen⟩

theorem lab_reach {G : SGraph V} {P : PMap V} {start z : V} {b : ℕ}
    (hpadj : ∀ v u, P v = some (some u) → adjS G u v)
    (h : Lab P start z b) : Reach G start z b := by
  obtain ⟨l, hanc, hlen⟩ := h
  have := walkFT_reach (anc_walk hpadj hanc)
  rw [hlen] at this
  simpa using this

theorem forall₂_mem_left {R : V → ℕ → Prop} :
    ∀ {l₁ : List V} {l₂ : List ℕ}, List.Forall₂ R l₁ l₂ →
      ∀ x ∈ l₁, ∃ y ∈ l₂, R x y := by
  intro l₁ l₂ h
  induction h with
  | nil => intro x hx; simp at hx
  | cons hr _ ih =>
    intro x hx
    rcases List.mem_cons.mp hx with rfl | hx'
    · exact ⟨_, List.mem_cons_self _ _, hr⟩
    · obtain ⟨y, hy, hry⟩ := ih x hx'
      exact ⟨y, List.mem_cons_of_mem _ hy, hry⟩

theorem forall₂_replicate {R : V → ℕ → Prop} {c : ℕ} :
    ∀ {l : List V}, (∀ x ∈ l, R x c) →
      List.Forall₂ R l (List.replicate l.length c) := by
  intro l
  induction l with
  | nil => intro _; simp [List.Forall₂.nil]
  | cons a t ih =>
    intro h
    rw [List.length_cons, List.replicate_succ]
    exact List.Forall₂.cons (h a (List.mem_cons_self _ _))
      (ih fun x hx => h x (List.mem_cons_of_mem _ hx))

theorem chain'_le_replicate (k c : ℕ) :
    List.Chain' (· ≤ ·) (List.replicate k c) := by
  induction k with
  | zero => simp
  | succ k ih =>
    rw [List.replicate_succ]
    refine List.chain'_cons'.mpr ⟨?_, ih⟩
    intro y hy
    have := List.mem_of_mem_head? hy
    rw [List.eq_of_mem_replicate this]

theorem chain'_cons_min {n : ℕ} {nl : List ℕ}
    (hch : List.Chain' (· ≤ ·) (n :: nl)) : ∀ b ∈ nl, n ≤ b := by
  have hp : List.Pairwise (· ≤ ·) (n :: nl) :=
    (List.chain'_iff_pairwise).mp hch
  exact fun b hb => (List.pairwise_cons.mp hp).1 b hb

theorem SInv.ord_length_le {G : SGraph V} {start : V} {P : PMap V}
    {q ord : List V} (inv : SInv G start P q ord) :
    ord.length ≤ G.nodes.length + 1 := by
  have hordnd : ord.Nodup := inv.nd.of_append_left
  have hsub : ord ⊆ start :: G.nodes := by
    intro x hx
    rcases inv.keysIn x (inv.ordKeys x hx) with rfl | h
    · exact List.mem_cons_self _ _
    · exact List.mem_cons_of_mem _ h
  have := (hordnd.subperm hsub).length_le
  simpa using this

theorem keys_closed_reach {G : SGraph V} {P : PMap V} {start : V}
    (hwf : WfS G) (hstart : (P start).isSome)
    (hclosed : ∀ x, (P x).isSome → ∀ y, adjS G x y → y ∈ G.nodes →
      (P y).isSome) :
    ∀ {t : V} {n : ℕ}, Reach G start t n → (P t).isSome := by
  suffices h : ∀ z t n, Reach G z t n → (P z).isSome → (P t).isSome by
    intro t n hr
    exact h start t n hr hstart
  intro z t n hr
  induction hr with
  | refl _ => exact id
  | head hadj _ ih =>
    intro hz
    exact ih (hclosed _ hz _ hadj (adjS_mem_right hwf hadj))

theorem bfs_new_label_min {G : SGraph V} {start v : V} {P : PMap V}
    {q ord : List V} (hwf : WfS G)
    (inv : SInv G start P (v :: q) ord) {n : ℕ}
    (hmin : ∀ z ∈ v :: q, ∀ ℓz, Lab P start z ℓz → n ≤ ℓz)
    (hopt : ∀ z ℓ, Lab P start z ℓ → ∀ m, Reach G start z m → ℓ ≤ m)
    {x : V} (hx : P x = none) :
    ∀ m, Reach G start x m → n + 1 ≤ m := by
  suffices h : ∀ z t m, Reach G z t m → P t = none → ∀ ℓ, (P z).isSome →
      Lab P start z ℓ → n + 1 ≤ ℓ + m by
    intro m hr
    have h0 := h start x m hr hx 0 (by simp [inv.root])
      ⟨[start], Anc.root inv.root, rfl⟩
    omega
  intro z t m hr
  induction hr with
  | refl w =>
    intro hxw ℓ hkz _
    rw [hxw] at hkz
    simp at hkz
  | @head z y w m' hadj hr' ih =>
    intro hxw ℓ hkz hlabz
    by_cases hky : (P y).isSome
    · obtain ⟨ly, hancy, hlynd⟩ := inv.chains y hky
      have hlaby := anc_lab hancy
      have hreachy : Reach G start y (ℓ + 1) :=
        reach_snoc (lab_reach inv.padj hlabz) hadj
      have hupper : ly.length - 1 ≤ ℓ + 1 := hopt y _ hlaby _ hreachy
      have := ih hxw (ly.length - 1) hky hlaby
      omega
    · have hzq : z ∈ v :: q := by
        rcases inv.cover z hkz with hzo | hzq
        · exact absurd (inv.expanded z hzo y hadj (adjS_mem_right hwf hadj))
            hky
        · exact hzq
      have := hmin z hzq ℓ hlabz
      omega

theorem BfsInv.expandPreservedLayers {G : SGraph V} {start v : V} {P : PMap V}
    {q ord : List V} (hwf : WfS G)
    (inv : BfsInv G start P (v :: q) ord) (hv : v ∈ G.nodes) :
    BfsInv G start (extendAll P v (freshNbrs G P v))
      (q ++ freshNbrs G P v) (ord ++ [v]) := by
  have base := inv.toSInv.expandPreserved hv hwf.1 (List.Perm.refl _)
  set F := freshNbrs G P v with hF
  have hFun : ∀ x ∈ F, P x = none := fun x hx => (mem_freshNbrs.mp hx).2
  have hkeep := extendAll_keep (P := P) (v := v) hFun
  obtain ⟨ql, hf2, hch, hspread⟩ := inv.layer
  cases hf2 with
  | cons hlabv hf2' =>
    rename_i n nl
    have hvchain : ∃ lv, Anc P start v lv ∧ lv.length = n + 1 := hlabv
    obtain ⟨lv, hancv, hlvlen⟩ := hvchain
    have hlabF : ∀ x ∈ F, Lab (extendAll P v F) start x (n + 1) := by
      intro x hxF
      refine ⟨lv ++ [x], Anc.step (anc_preserved hkeep hancv)
        (extendAll_mem hxF), ?_⟩
      simp [hlvlen]
    have hmin : ∀ z ∈ v :: q, ∀ ℓz, Lab P start z ℓz → n ≤ ℓz := by
      intro z hz ℓz hlabz
      rcases List.mem_cons.mp hz with rfl | hzq
      · rw [lab_unique hlabz hlabv]
      · obtain ⟨b, hb, hlabzb⟩ := forall₂_mem_left hf2' z hzq
        rw [lab_unique hlabz hlabzb]
        exact chain'_cons_min hch b hb
    have hnewmin : ∀ x ∈ F, ∀ m, Reach G start x m → n + 1 ≤ m :=
      fun x hxF => bfs_new_label_min hwf inv.toSInv hmin inv.opt (hFun x hxF)
    have hlab_old : ∀ z ℓ, (P z).isSome → Lab P start z ℓ →
        Lab (extendAll P v F) start z ℓ :=
      fun z ℓ _ h => lab_preserved hkeep h
    refine ⟨base, ?_, ?_⟩
    · refine ⟨nl ++ List.replicate F.length (n + 1), ?_, ?_, ?_⟩
      · refine List.rel_append ?_ (forall₂_replicate hlabF)
        exact hf2'.imp fun _ _ hl => lab_preserved hkeep hl

      · refine List.Chain'.append (hch.tail) (chain'_le_replicate _ _) ?_
        intro x hx y hy
        have hxnl : x ∈ nl := List.mem_of_mem_getLast? hx
        have hyv : y = n + 1 := by
          have := List.mem_of_mem_head? hy
          exact List.eq_of_mem_replicate this
        subst hyv
        exact hspread x (List.mem_cons_of_mem _ hxnl) n
          (List.mem_cons_self _ _)
      · intro a ha b hb
        rcases List.mem_append.mp ha with ha | ha
        · rcases List.mem_append.mp hb with hb | hb
          · exact hspread a (List.mem_cons_of_mem _ ha) b
              (List.mem_cons_of_mem _ hb)
          · have hbv : b = n + 1 := List.eq_of_mem_replicate hb
            subst hbv
            have := hspread a (List.mem_cons_of_mem _ ha) n
              (List.mem_cons_self _ _)
            omega
        · have hav : a = n + 1 := List.eq_of_mem_replicate ha
          subst hav
          rcases List.mem_append.mp hb with hb | hb
          · have := chain'_cons_min hch b hb
            omega
          · have hbv : b = n + 1 := List.eq_of_mem_replicate hb
            omega
    · intro z ℓ hlabz m hreach
      have hkz := anc_key_self hlabz.choose_spec.1
      rcases extendAll_isSome.mp hkz with hzF | hzP
      · have := lab_unique hlabz (hlabF z hzF)
        subst this
        exact hnewmin z hzF m hreach
      · obtain ⟨lz, hanz, _⟩ := inv.chains z hzP
        have hlab_pre := anc_lab hanz
        have hlab_post := hlab_old z _ hzP hlab_pre
        have := lab_unique hlabz hlab_post
        subst this
        exact inv.opt z _ hlab_pre m hreach

theorem anc_initial {start z : V} {l : List V}
    (h : Anc (updF (fun _ => none) start (some none) : PMap V) start z l) :
    l = [start] ∧ z = start := by
  induction h with
  | root _ => exact ⟨rfl, rfl⟩
  | step h hv ih =>
    exfalso
    rw [updF] at hv
    split at hv <;> simp_all

theorem initial_BfsInv (G : SGraph V) (start : V) :
    BfsInv G start (updF (fun _ => none) start (some none)) [start] [] := by
  refine ⟨initial_SInv G start, ?_, ?_⟩
  · refine ⟨[0], ?_, by simp, by simp⟩
    exact List.Forall₂.cons ⟨[start], Anc.root (by simp [updF]), rfl⟩
      List.Forall₂.nil
  · intro z ℓ hlab m hreach
    obtain ⟨l, hanc, hlen⟩ := hlab
    obtain ⟨rfl, rfl⟩ := anc_initial hanc
    simp at hlen
    omega

theorem bfsAux_sound {G : SGraph V} {start : V} (hwf : WfS G)
    (hstart : start ∈ G.nodes) (goal : V) :
    ∀ fuel (P : PMap V) (q ord : List V), BfsInv G start P q ord →
      G.nodes.length + 2 ≤ fuel + ord.length →
      ∃ out, searchAux G (bfsStep G) goal fuel P q ord = some out ∧
        SPost G start goal ord q out ∧
        ∀ z ℓ, Lab out.1 start z ℓ → ∀ m, Reach G start z m → ℓ ≤ m := by
  intro fuel
  induction fuel with
  | zero =>
    intro P q ord inv hfuel
    exfalso
    have := inv.toSInv.ord_length_le
    omega
  | succ f ih =>
    intro P q ord inv hfuel
    cases q with
    | nil =>
      refine ⟨(P, ord), by simp [searchAux], ?_, inv.opt⟩
      refine ⟨inv.root, inv.keysIn, inv.padj, inv.chains, ?_, by simp, ?_⟩
      · have := inv.nd
        simpa using this
      · refine Or.inr ?_
        intro x hx y hadj hy
        rcases inv.cover x hx with hxo | hxq
        · exact inv.expanded x hxo y hadj hy
        · simp at hxq
    | cons v q =>
      by_cases hvg : v = goal
      · subst hvg
        refine ⟨(P, ord ++ [v]), by simp [searchAux], ?_, inv.opt⟩
        refine ⟨inv.root, inv.keysIn, inv.padj, inv.chains, ?_, ?_, ?_⟩
        · exact inv.nd.sublist (List.Sublist.append_left (by simp) ord)
        · cases ord <;> simp
        · exact Or.inl (inv.qKeys v (List.mem_cons_self _ _))
      · have hv : v ∈ G.nodes := by
          rcases inv.keysIn v (inv.qKeys v (List.mem_cons_self _ _)) with
            rfl | h
          · exact hstart
          · exact h
        have hbfseq := bfsStep_eq hwf.1 v P q
        have inv' : BfsInv G start (bfsStep G v P q).1 (bfsStep G v P q).2
            (ord ++ [v]) := by
          rw [hbfseq]
          exact inv.expandPreservedLayers hwf hv
        have hfuel' : G.nodes.length + 2 ≤ f + (ord ++ [v]).length := by
          simp only [List.length_append, List.length_singleton]
          omega
        obtain ⟨out, hout, hpost, hopt⟩ := ih _ _ _ inv' hfuel'
        refine ⟨out, ?_, ?_, hopt⟩
        · simp only [searchAux, if_neg hvg, if_pos hv]
          exact hout
        · refine ⟨hpost.root, hpost.keysIn, hpost.padj, hpost.chains,
            hpost.ndOrd, ?_, hpost.closedOrGoal⟩
          rw [hpost.headOrd]
          exact head?_append_fixed ord v q _

/-- **C1.** For every graph and nodes `start`, `goal` present in it with
`goal` reachable from `start`, the path `bfs_path` returns (rebuilt from
the parent map) is a walk from `start` to `goal` whose number of edges
is minimal over all walks between them. -/
theorem C1_bfs_min_edge_path (G : SGraph V) (start goal : V)
    (hwf : WfS G) (hs : start ∈ G.nodes) (hg : goal ∈ G.nodes)
    (hr : reachableS G start goal) :
    ∃ p ord, bfs_path G start goal = some (p, ord) ∧
      WalkFT G start goal p ∧
      ∀ l, WalkFT G start goal l → p.length ≤ l.length := by
  obtain ⟨out, hout, hpost, hopt⟩ := bfsAux_sound hwf hs goal
    (G.nodes.length + 2) _ _ _ (initial_BfsInv G start) (by simp)
  obtain ⟨P, ordv⟩ := out
  have hkey : (P goal).isSome := by
    rcases hpost.closedOrGoal with h | hclosed
    · exact h
    · obtain ⟨n, hreach⟩ := reachableS_iff.mp hr
      have hroot : P start = some none := hpost.root
      exact keys_closed_reach hwf (by simp [hroot]) hclosed hreach
  obtain ⟨l, hanc, hlnd⟩ := hpost.chains goal hkey
  have hlen : l.length ≤ G.nodes.length + 2 := by
    have hsub : l ⊆ start :: G.nodes := fun x hx => by
      rcases hpost.keysIn x (anc_keys hanc x hx) with rfl | h
      · exact List.mem_cons_self _ _
      · exact List.mem_cons_of_mem _ h
    have := (hlnd.subperm hsub).length_le
    simp at this
    omega
  refine ⟨l, ordv, ?_, anc_walk hpost.padj hanc, ?_⟩
  · unfold bfs_path
    rw [hout]
    dsimp only
    rw [reconstruct_anc hanc hlen]
  · intro l' hl'
    have hminim := hopt goal (l.length - 1) (anc_lab hanc)
      (l'.length - 1) (walkFT_reach hl')
    have h1 : 0 < l.length := List.length_pos.mpr (anc_ne_nil hanc)
    have h2 : 0 < l'.length := List.length_pos.mpr hl'.1.1
    omega

theorem C1_bfs_min_edge_path_witness :
    WfS (SGraph.mk [Device.AP_1, Device.AP_2, Device.Camera_1]
        [(Device.AP_1, Device.AP_2), (Device.AP_2, Device.Camera_1)]) ∧
      Device.AP_1 ∈ (SGraph.mk [Device.AP_1, Device.AP_2, Device.Camera_1]
        [(Device.AP_1, Device.AP_2),
          (Device.AP_2, Device.Camera_1)]).nodes ∧
      Device.Camera_1 ∈
        (SGraph.mk [Device.AP_1, Device.AP_2, Device.Camera_1]
          [(Device.AP_1, Device.AP_2),
            (Device.AP_2, Device.Camera_1)]).nodes ∧
      reachableS (SGraph.mk [Device.AP_1, Device.AP_2, Device.Camera_1]
          [(Device.AP_1, Device.AP_2), (Device.AP_2, Device.Camera_1)])
        Device.AP_1 Device.Camera_1 ∧
      ∃ p ord,
        bfs_path (SGraph.mk [Device.AP_1, Device.AP_2, Device.Camera_1]
            [(Device.AP_1, Device.AP_2), (Device.AP_2, Device.Camera_1)])
          Device.AP_1 Device.Camera_1 = some (p, ord) ∧
        WalkFT (SGraph.mk [Device.AP_1, Device.AP_2, Device.Camera_1]
            [(Device.AP_1, Device.AP_2), (Device.AP_2, Device.Camera_1)])
          Device.AP_1 Device.Camera_1 p ∧
        ∀ l, WalkFT (SGraph.mk [Device.AP_1, Device.AP_2, Device.Camera_1]
            [(Device.AP_1, Device.AP_2), (Device.AP_2, Device.Camera_1)])
          Device.AP_1 Device.Camera_1 l → p.length ≤ l.length :=
  by
  have hwalk : WalkFT (SGraph.mk [Device.AP_1, Device.AP_2, Device.Camera_1]
      [(Device.AP_1, Device.AP_2), (Device.AP_2, Device.Camera_1)])
      Device.AP_1 Device.Camera_1
      [Device.AP_1, Device.AP_2, Device.Camera_1] := by
    refine ⟨⟨by simp, ?_⟩, rfl, rfl⟩
    refine List.chain'_cons.mpr ⟨Or.inl (by decide), ?_⟩
    refine List.chain'_cons.mpr ⟨Or.inl (by decide), ?_⟩
    simp
  exact ⟨by decide, by decide, by decide, ⟨_, hwalk⟩,
    C1_bfs_min_edge_path
      (SGraph.mk [Device.AP_1, Device.AP_2, Device.Camera_1]
        [(Device.AP_1, Device.AP_2), (Device.AP_2, Device.Camera_1)])
      Device.AP_1 Device.Camera_1 (by decide) (by decide) (by decide)
      ⟨_, hwalk⟩⟩

/-! ### Claims C6 (amended), C7, C8, C9, C10 -/

/-- **C6 (amended).** A path query fails (with the `networkx`
`UnknownNode` error) exactly when `start` is absent from the graph and
differs from `goal`; a present `start` with an unreachable (in
particular, absent) `goal` is not an error and yields an empty path,
for both BFS and DFS. -/
theorem C6_unknown_start_and_unreachable (G : SGraph V) (start goal : V)
    (hwf : WfS G) :
    (start ∉ G.nodes → start ≠ goal →
      bfs_path G start goal = none ∧ dfs_path G start goal = none) ∧
    (start ∈ G.nodes → ¬ reachableS G start goal →
      (∃ ordB, bfs_path G start goal = some ([], ordB)) ∧
      ∃ ordD, dfs_path G start goal = some ([], ordD)) := by
  constructor
  · intro hs hsg
    exact ⟨bfs_path_absent_start G hs hsg, dfs_path_absent_start G hs hsg⟩
  · intro hs hnr
    obtain ⟨p, ord, h1, _, _, hemp⟩ := bfs_path_spec G start goal hwf hs
    obtain ⟨p', ord', h1', _, _, hemp'⟩ := dfs_path_spec G start goal hwf hs
    refine ⟨⟨ord, ?_⟩, ⟨ord', ?_⟩⟩
    · rw [← hemp hnr]; exact h1
    · rw [← hemp' hnr]; exact h1'

theorem C6_unknown_start_witness :
    ((Device.ISP ∉ (SGraph.mk [Device.ISP, Device.Router]
        ([] : List (Device × Device))).nodes → Device.ISP ≠ Device.Router →
      bfs_path (SGraph.mk [Device.ISP, Device.Router] []) .ISP .Router =
          none ∧
        dfs_path (SGraph.mk [Device.ISP, Device.Router] []) .ISP .Router =
          none) ∧
    (Device.ISP ∈ (SGraph.mk [Device.ISP, Device.Router]
        ([] : List (Device × Device))).nodes →
      ¬ reachableS (SGraph.mk [Device.ISP, Device.Router] [])
          Device.ISP Device.Router →
      (∃ ordB, bfs_path (SGraph.mk [Device.ISP, Device.Router] [])
          .ISP .Router = some ([], ordB)) ∧
      ∃ ordD, dfs_path (SGraph.mk [Device.ISP, Device.Router] [])
          .ISP .Router = some ([], ordD))) :=
  C6_unknown_start_and_unreachable
    (SGraph.mk [Device.ISP, Device.Router] []) .ISP .Router (by decide)

/-- **C7.** For parent maps produced by a BFS or DFS run: a `goal` that
is not a key of the map (and differs from `start`) reconstructs to the
empty path, and any reconstructed nonempty path begins with `start` —
a malformed partial path is never returned. -/
theorem C7_reconstruction_safety (G : SGraph V) (start goal : V)
    (P : PMap V) (ord : List V) (fuel rfuel : ℕ)
    (h : searchAux G (bfsStep G) goal fuel
        (updF (fun _ => none) start (some none)) [start] [] =
          some (P, ord) ∨
      searchAux G (dfsStep G) goal fuel
        (updF (fun _ => none) start (some none)) [start] [] =
          some (P, ord)) :
    (P goal = none → goal ≠ start →
      reconstruct_path P start goal rfuel = some []) ∧
    ∀ r, reconstruct_path P start goal rfuel = some r →
      r = [] ∨ r.head? = some start :=
  ⟨fun hn _ => reconstruct_no_key hn, fun _ hr => reconstruct_shape hr⟩

theorem C7_reconstruction_witness :
    (((updF (fun _ => none) Device.ISP (some none) : PMap Device)
        Device.ISP = none → Device.ISP ≠ Device.ISP →
      reconstruct_path (updF (fun _ => none) Device.ISP (some none))
        Device.ISP Device.ISP 3 = some []) ∧
    ∀ r, reconstruct_path
        (updF (fun _ => none) Device.ISP (some none))
        Device.ISP Device.ISP 3 = some r →
      r = [] ∨ r.head? = some Device.ISP) :=
  C7_reconstruction_safety (SGraph.mk [Device.ISP] []) .ISP .ISP
    (updF (fun _ => none) Device.ISP (some none)) [Device.ISP] 3 3
    (Or.inl (by
      rw [show (3 : ℕ) = 2 + 1 from rfl]
      simpa using searchAux_pop_goal (SGraph.mk [Device.ISP] [])
        (bfsStep (SGraph.mk [Device.ISP] [])) Device.ISP 2
        (updF (fun _ => none) Device.ISP (some none)) [] []))

/-- **C8.** Querying a path with `start == goal` (a node of the graph)
returns the single-node path of edge count 0, in both BFS and DFS. -/
theorem C8_self_query (G : SGraph V) (v : V) (hv : v ∈ G.nodes) :
    bfs_path G v v = some ([v], [v]) ∧ dfs_path G v v = some ([v], [v]) ∧
      ([v] : List V).length - 1 = 0 :=
  ⟨bfs_path_self G v, dfs_path_self G v, rfl⟩

theorem C8_self_query_witness :
    Device.ISP ∈ build_network_topology.nodes ∧
      (bfs_path build_network_topology .ISP .ISP = some ([.ISP], [.ISP]) ∧
        dfs_path build_network_topology .ISP .ISP = some ([.ISP], [.ISP]) ∧
        ([Device.ISP] : List Device).length - 1 = 0) :=
  ⟨by decide, C8_self_query build_network_topology .ISP (by decide)⟩

/-- **C9.** The average-degree computation fails exactly on the empty
graph (Python's division raises there, the design's `EmptyGraph`
error), and on every non-empty graph returns the degree sum divided by
the node count. -/
theorem C9_average_degree (G : SGraph V) :
    (average_degree G = none ↔ G.nodes.length = 0) ∧
    (G.nodes.length ≠ 0 →
      average_degree G =
        some (((G.nodes.map (degree G)).sum : ℚ) /
          (G.nodes.length : ℚ))) := by
  constructor
  · unfold average_degree
    split
    · simp_all
    · simp_all
  · intro h
    unfold average_degree
    rw [if_neg h]

theorem C9_average_degree_witness :
    build_network_topology.nodes.length ≠ 0 ∧
      average_degree build_network_topology =
        some (((build_network_topology.nodes.map
            (degree build_network_topology)).sum : ℚ) /
          (build_network_topology.nodes.length : ℚ)) :=
  ⟨by decide, (C9_average_degree build_network_topology).2 (by decide)⟩

/-- **C10.** For every graph and start node present in it, both BFS and
DFS terminate (returning a result rather than running forever or
erroring), and the returned visit order begins with `start` and contains
no node more than once. -/
theorem C10_visit_order (G : SGraph V) (start goal : V) (hwf : WfS G)
    (hs : start ∈ G.nodes) :
    ∃ pB oB pD oD, bfs_path G start goal = some (pB, oB) ∧
      dfs_path G start goal = some (pD, oD) ∧
      oB.head? = some start ∧ oB.Nodup ∧
      oD.head? = some start ∧ oD.Nodup := by
  obtain ⟨pB, oB, h1, h2, h3, _⟩ := bfs_path_spec G start goal hwf hs
  obtain ⟨pD, oD, h1', h2', h3', _⟩ := dfs_path_spec G start goal hwf hs
  exact ⟨pB, oB, pD, oD, h1, h1', h2, h3, h2', h3'⟩

theorem C10_visit_order_witness :
    WfS build_network_topology ∧
      Device.ISP ∈ build_network_topology.nodes ∧
      ∃ pB oB pD oD,
        bfs_path build_network_topology .ISP .Camera_2 = some (pB, oB) ∧
        dfs_path build_network_topology .ISP .Camera_2 = some (pD, oD) ∧
        oB.head? = some Device.ISP ∧ oB.Nodup ∧
        oD.head? = some Device.ISP ∧ oD.Nodup :=
  ⟨by decide, by decide,
    C10_visit_order build_network_topology .ISP .Camera_2
      (by decide) (by decide)⟩

/-! ### The weighted graph: basic facts -/

theorem adjW_symm {G : WGraph V} {u v : V} (h : adjW G u v) :
    adjW G v u := by
  obtain ⟨e, he, hor⟩ := h
  exact ⟨e, he, hor.symm⟩

theorem wt_symm (G : WGraph V) (u v : V) : wt G u v = wt G v u := by
  unfold wt
  have : (fun e : V × V × ℚ =>
      decide ((e.1 = u ∧ e.2.1 = v) ∨ (e.1 = v ∧ e.2.1 = u))) =
      (fun e : V × V × ℚ =>
      decide ((e.1 = v ∧ e.2.1 = u) ∨ (e.1 = u ∧ e.2.1 = v))) := by
    funext e
    simp [or_comm]
  rw [this]

theorem adjW_mem_nbrsW {G : WGraph V} {u v : V} (h : adjW G u v) :
    v ∈ nbrsW G u := by
  obtain ⟨e, he, hor⟩ := h
  unfold nbrsW
  rcases hor with ⟨h1, h2⟩ | ⟨h1, h2⟩
  · exact List.mem_filterMap.mpr ⟨e, he, by rw [if_pos h1, h2]⟩
  · refine List.mem_filterMap.mpr ⟨e, he, ?_⟩
    by_cases hu : e.1 = u
    · rw [if_pos hu, h2, ← hu, h1]
    · rw [if_neg hu, if_pos h2, h1]

theorem mem_nbrsW_adjW {G : WGraph V} {u v : V} (h : v ∈ nbrsW G u) :
    adjW G u v := by
  unfold nbrsW at h
  obtain ⟨e, he, hev⟩ := List.mem_filterMap.mp h
  refine ⟨e, he, ?_⟩
  by_cases h1 : e.1 = u
  · rw [if_pos h1] at hev
    injection hev with hev
    exact Or.inl ⟨h1, hev⟩
  · rw [if_neg h1] at hev
    by_cases h2 : e.2.1 = u
    · rw [if_pos h2] at hev
      injection hev with hev
      exact Or.inr ⟨hev, h2⟩
    · rw [if_neg h2] at hev
      cases hev

theorem nbrsW_mem_nodes {G : WGraph V} (hwf : WfW G) {u v : V}
    (h : v ∈ nbrsW G u) : v ∈ G.nodes := by
  obtain ⟨e, he, hor⟩ := mem_nbrsW_adjW h
  rcases hor with ⟨_, h2⟩ | ⟨h1, _⟩
  · exact h2 ▸ (hwf.2 e he).2
  · exact h1 ▸ (hwf.2 e he).1

theorem nbrsW_length_le (G : WGraph V) (u : V) :
    (nbrsW G u).length ≤ G.edges.length :=
  List.length_filterMap_le _ _

theorem wt_pos {G : WGraph V} (hpos : PosW G) {u v : V}
    (h : adjW G u v) : 0 < wt G u v := by
  unfold wt
  have hfind : (G.edges.find? (fun e =>
      decide ((e.1 = u ∧ e.2.1 = v) ∨ (e.1 = v ∧ e.2.1 = u)))).isSome := by
    rw [List.find?_isSome]
    obtain ⟨e, he, hor⟩ := h
    exact ⟨e, he, by simpa using hor⟩
  obtain ⟨e, hfe⟩ := Option.isSome_iff_exists.mp hfind
  rw [hfe]
  exact hpos e (List.mem_of_find?_eq_some hfe)

/-! ### Weighted reachability -/

theorem wreach_nonneg {G : WGraph V} (hpos : PosW G) {s t : V} {c : ℚ}
    (h : WReach G s t c) : 0 ≤ c := by
  induction h with
  | refl _ => exact le_refl 0
  | head hadj _ ih =>
    have := wt_pos hpos hadj
    linarith

theorem wreach_append {G : WGraph V} {s m t : V} {c₁ c₂ : ℚ}
    (h₁ : WReach G s m c₁) (h₂ : WReach G m t c₂) :
    WReach G s t (c₁ + c₂) := by
  induction h₁ with
  | refl _ => simpa using h₂
  | head hadj _ ih =>
    have := WReach.head hadj (ih h₂)
    rw [← add_assoc] at this
    exact this

theorem wreach_single {G : WGraph V} {u v : V} (h : adjW G u v) :
    WReach G u v (wt G u v) := by
  have := WReach.head h (WReach.refl v)
  simpa using this

theorem wreach_snoc {G : WGraph V} {s u v : V} {c : ℚ}
    (h : WReach G s u c) (hadj : adjW G u v) :
    WReach G s v (c + wt G u v) :=
  wreach_append h (wreach_single hadj)

theorem wreach_symm {G : WGraph V} {s t : V} {c : ℚ}
    (h : WReach G s t c) : WReach G t s c := by
  induction h with
  | refl v => exact WReach.refl v
  | @head u v w c' hadj _ ih =>
    have := wreach_snoc ih (adjW_symm hadj)
    rw [wt_symm G v u] at this
    rw [add_comm] at this
    exact this

theorem reachW_symm {G : WGraph V} {s t : V} (h : reachW G s t) :
    reachW G t s := by
  obtain ⟨c, hc⟩ := h
  exact ⟨c, wreach_symm hc⟩

/-! ### The heap model -/

theorem hpush_mem {x p : ℚ × V} : ∀ {l : List (ℚ × V)},
    p ∈ hpush x l ↔ p = x ∨ p ∈ l := by
  intro l
  induction l with
  | nil => simp [hpush]
  | cons y t ih =>
    unfold hpush
    split
    · simp [List.mem_cons]
    · simp only [List.mem_cons, ih]
      tauto

theorem hpush_length (x : ℚ × V) : ∀ (l : List (ℚ × V)),
    (hpush x l).length = l.length + 1 := by
  intro l
  induction l with
  | nil => rfl
  | cons y t ih =>
    unfold hpush
    split
    · simp
    · simp [ih]

theorem hpush_pairwise {x : ℚ × V} : ∀ {l : List (ℚ × V)},
    l.Pairwise (fun a b => a.1 ≤ b.1) →
      (hpush x l).Pairwise (fun a b => a.1 ≤ b.1) := by
  intro l
  induction l with
  | nil => intro _; simp [hpush]
  | cons y t ih =>
    intro hp
    rw [List.pairwise_cons] at hp
    unfold hpush
    split
    · next hc =>
      have hxy : x.1 ≤ y.1 := by
        rcases hc with h | ⟨h, _⟩
        · exact le_of_lt h
        · exact le_of_eq h
      refine List.pairwise_cons.mpr ⟨?_, List.pairwise_cons.mpr hp⟩
      intro b hb
      rcases List.mem_cons.mp hb with rfl | hb
      · exact hxy
      · exact le_trans hxy (hp.1 b hb)
    · next hc =>
      push_neg at hc
      have hyx : y.1 ≤ x.1 := hc.1
      refine List.pairwise_cons.mpr ⟨?_, ih hp.2⟩
      intro b hb
      rcases hpush_mem.mp hb with rfl | hb
      · exact hyx
      · exact hp.1 b hb

/-! ### The relaxation loop of one Dijkstra iteration -/

theorem relax_eq (G : WGraph V) (u : V) (cur : ℚ)
    (s : (V → Qinf) × List (ℚ × V)) (v : V) :
    relax G u cur s v =
      if ((cur + wt G u v : ℚ) : Qinf) < s.1 v
      then (updF s.1 v ((cur + wt G u v : ℚ) : Qinf),
        hpush (cur + wt G u v, v) s.2)
      else s := rfl

theorem relax_fold_spec (G : WGraph V) (u : V) (cur : ℚ) :
    ∀ (ns : List V) (dist : V → Qinf) (pq : List (ℚ × V)),
      (∀ y, (ns.foldl (relax G u cur) (dist, pq)).1 y ≤ dist y) ∧
      (∀ y, (ns.foldl (relax G u cur) (dist, pq)).1 y = dist y ∨
        ((ns.foldl (relax G u cur) (dist, pq)).1 y =
            ((cur + wt G u y : ℚ) : Qinf) ∧
          (ns.foldl (relax G u cur) (dist, pq)).1 y < dist y ∧ y ∈ ns ∧
          (cur + wt G u y, y) ∈ (ns.foldl (relax G u cur) (dist, pq)).2)) ∧
      (∀ p ∈ pq, p ∈ (ns.foldl (relax G u cur) (dist, pq)).2) ∧
      (∀ p ∈ (ns.foldl (relax G u cur) (dist, pq)).2, p ∈ pq ∨
        (∃ y ∈ ns, p = (cur + wt G u y, y) ∧
          (ns.foldl (relax G u cur) (dist, pq)).1 y ≤
            ((cur + wt G u y : ℚ) : Qinf))) ∧
      (∀ y ∈ ns, (ns.foldl (relax G u cur) (dist, pq)).1 y ≤
        ((cur + wt G u y : ℚ) : Qinf)) ∧
      ((ns.foldl (relax G u cur) (dist, pq)).2.length ≤
        pq.length + ns.length) := by
  intro ns
  induction ns with
  | nil =>
    intro dist pq
    refine ⟨fun y => le_refl _, fun y => Or.inl rfl, fun p hp => hp, ?_,
      ?_, by simp⟩
    · intro p hp
      exact Or.inl hp
    · intro y hy
      simp at hy
  | cons a t ih =>
    intro dist pq
    rw [List.foldl_cons, relax_eq]
    split
    · next hlt =>
      obtain ⟨ih1, ih2, ih3, ih4, ih5, ih6⟩ :=
        ih (updF dist a ((cur + wt G u a : ℚ) : Qinf))
          (hpush (cur + wt G u a, a) pq)
      have hupd_le : ∀ y,
          updF dist a ((cur + wt G u a : ℚ) : Qinf) y ≤ dist y := by
        intro y
        rw [updF]
        split
        · next hy => subst hy; exact le_of_lt hlt
        · exact le_refl _
      have hupd_a : updF dist a ((cur + wt G u a : ℚ) : Qinf) a =
          ((cur + wt G u a : ℚ) : Qinf) := by
        rw [updF, if_pos rfl]
      refine ⟨?_, ?_, ?_, ?_, ?_, ?_⟩
      · intro y
        exact le_trans (ih1 y) (hupd_le y)
      · intro y
        rcases ih2 y with h | ⟨h1, h2, h3, h4⟩
        · by_cases hya : y = a
          · subst hya
            refine Or.inr ⟨by rw [h, hupd_a], ?_, by simp, ?_⟩
            · rw [h, hupd_a]; exact hlt
            · exact ih3 _ (hpush_mem.mpr (Or.inl rfl))
          · left
            rw [h, updF, if_neg hya]
        · refine Or.inr ⟨h1, lt_of_lt_of_le h2 (hupd_le y),
            List.mem_cons_of_mem _ h3, h4⟩
      · intro p hp
        exact ih3 p (hpush_mem.mpr (Or.inr hp))
      · intro p hp
        rcases ih4 p hp with hmem | ⟨y, hy, hpe, hle⟩
        · rcases hpush_mem.mp hmem with rfl | hmem'
          · refine Or.inr ⟨a, by simp, rfl, ?_⟩
            exact le_trans (ih1 a) (le_of_eq hupd_a)
          · exact Or.inl hmem'
        · exact Or.inr ⟨y, List.mem_cons_of_mem _ hy, hpe, hle⟩
      · intro y hy
        rcases List.mem_cons.mp hy with rfl | hy'
        · exact le_trans (ih1 y) (le_of_eq hupd_a)
        · exact ih5 y hy'
      · calc (t.foldl (relax G u cur)
            (updF dist a ((cur + wt G u a : ℚ) : Qinf),
              hpush (cur + wt G u a, a) pq)).2.length ≤
            (hpush (cur + wt G u a, a) pq).length + t.length := ih6
          _ = pq.length + (a :: t).length := by
            rw [hpush_length]
            simp
            omega
    · next hnlt =>
      obtain ⟨ih1, ih2, ih3, ih4, ih5, ih6⟩ := ih dist pq
      refine ⟨ih1, ?_, ih3, ?_, ?_, ?_⟩
      · intro y
        rcases ih2 y with h | ⟨h1, h2, h3, h4⟩
        · exact Or.inl h
        · exact Or.inr ⟨h1, h2, List.mem_cons_of_mem _ h3, h4⟩
      · intro p hp
        rcases ih4 p hp with h | ⟨y, hy, hpe, hle⟩
        · exact Or.inl h
        · exact Or.inr ⟨y, List.mem_cons_of_mem _ hy, hpe, hle⟩
      · intro y hy
        rcases List.mem_cons.mp hy with rfl | hy'
        · exact le_trans (ih1 y) (le_of_not_lt hnlt)
        · exact ih5 y hy'
      · calc (t.foldl (relax G u cur) (dist, pq)).2.length ≤
            pq.length + t.length := ih6
          _ ≤ pq.length + (a :: t).length := by simp

theorem relax_fold_pairwise {G : WGraph V} {u : V} {cur : ℚ} :
    ∀ (ns : List V) (dist : V → Qinf) (pq : List (ℚ × V)),
      pq.Pairwise (fun a b => a.1 ≤ b.1) →
        (ns.foldl (relax G u cur) (dist, pq)).2.Pairwise
          (fun a b => a.1 ≤ b.1) := by
  intro ns
  induction ns with
  | nil => intro dist pq hp; exact hp
  | cons a t ih =>
    intro dist pq hp
    rw [List.foldl_cons, relax_eq]
    split
    · exact ih _ _ (hpush_pairwise hp)
    · exact ih _ _ hp

theorem relax_fold_noop {G : WGraph V} {u : V} {cur : ℚ} :
    ∀ (ns : List V) (dist : V → Qinf) (pq : List (ℚ × V)),
      (∀ y ∈ ns, ¬ (((cur + wt G u y : ℚ) : Qinf) < dist y)) →
        ns.foldl (relax G u cur) (dist, pq) = (dist, pq) := by
  intro ns
  induction ns with
  | nil => intro dist pq _; rfl
  | cons a t ih =>
    intro dist pq h
    rw [List.foldl_cons, relax_eq,
      if_neg (h a (List.mem_cons_self _ _))]
    exact ih dist pq fun y hy => h y (List.mem_cons_of_mem _ hy)

/-! ### Coverage: every walk is matched by the state -/

theorem dij_cover {G : WGraph V} {start : V} {dist : V → Qinf}
    {pq : List (ℚ × V)} (hpos : PosW G)
    (hzero : dist start = 0)
    (hfresh : ∀ v, dist v ≠ ⊤ →
      (∃ c : ℚ, dist v = (c : Qinf) ∧ (c, v) ∈ pq) ∨
        ∀ y ∈ nbrsW G v, dist y ≤ dist v + (wt G v y : Qinf)) :
    ∀ {w : V} {c : ℚ}, WReach G start w c →
      dist w ≤ (c : Qinf) ∨ ∃ p ∈ pq, (p : ℚ × V).1 ≤ c := by
  suffices h : ∀ {z w : V} {c : ℚ}, WReach G z w c → ∀ (cz : ℚ),
      dist z ≤ (cz : Qinf) →
      dist w ≤ ((cz + c : ℚ) : Qinf) ∨ ∃ p ∈ pq, (p : ℚ × V).1 ≤ cz + c by
    intro w c hr
    have h0 : dist start ≤ ((0 : ℚ) : Qinf) := by simp [hzero]
    rcases h hr 0 h0 with hc | ⟨p, hp, hple⟩
    · left; simpa using hc
    · right; exact ⟨p, hp, by simpa using hple⟩
  intro z w c hr
  induction hr with
  | refl v =>
    intro cz hz
    left
    simpa using hz
  | @head z y w c' hadj hr' ih =>
    intro cz hz
    have hzfin : dist z ≠ ⊤ := by
      intro h
      rw [h] at hz
      exact WithTop.not_top_le_coe cz hz
    rcases hfresh z hzfin with ⟨cf, hcf, hmem⟩ | hrel
    · right
      refine ⟨(cf, z), hmem, ?_⟩
      have hcfcz : cf ≤ cz := by
        rw [hcf] at hz
        exact_mod_cast hz
      have h1 : 0 ≤ c' := wreach_nonneg hpos hr'
      have h2 : 0 < wt G z y := wt_pos hpos hadj
      simp only
      linarith
    · have hy : dist y ≤ ((cz + wt G z y : ℚ) : Qinf) := by
        calc dist y ≤ dist z + (wt G z y : Qinf) :=
              hrel y (adjW_mem_nbrsW hadj)
          _ ≤ (cz : Qinf) + (wt G z y : Qinf) := add_le_add_right hz _
          _ = ((cz + wt G z y : ℚ) : Qinf) := by rw [WithTop.coe_add]
      have hassoc : cz + wt G z y + c' = cz + (wt G z y + c') := by ring
      rcases ih (cz + wt G z y) hy with h | ⟨p, hp, hple⟩
      · left
        rwa [hassoc] at h
      · right
        refine ⟨p, hp, ?_⟩
        rwa [hassoc] at hple

/-! ### The Dijkstra loop -/

theorem dijAux_sound {G : WGraph V} {start : V} (hwf : WfW G)
    (hpos : PosW G) :
    ∀ (fuel : ℕ) (dist : V → Qinf) (pq : List (ℚ × V)) (S : Finset V),
      DijInv G start dist pq →
      (∀ v ∈ S, Settled G start dist v) →
      (∀ v ∈ S, v ∈ G.nodes) →
      (G.nodes.length - S.card) * (G.edges.length + 1) + pq.length + 1 ≤
        fuel →
      ∃ d, dijAux G fuel dist pq = some d ∧ d start = 0 ∧
        (∀ v, d v = ⊤ ∨ ∃ c : ℚ, d v = (c : Qinf) ∧ WReach G start v c) ∧
        ∀ w c, WReach G start w c → d w ≤ (c : Qinf) := by
  intro fuel
  induction fuel with
  | zero =>
    intro dist pq S inv hS hSsub hfuel
    omega
  | succ f ih =>
    intro dist pq S inv hS hSsub hfuel
    cases pq with
    | nil =>
      refine ⟨dist, by simp [dijAux], inv.startZero, inv.attained, ?_⟩
      intro w c hr
      rcases dij_cover hpos inv.startZero inv.fresh hr with h | ⟨p, hp, _⟩
      · exact h
      · simp at hp
    | cons e rest =>
      obtain ⟨cur, u⟩ := e
      by_cases hstale : dist u < (cur : Qinf)
      · have inv' : DijInv G start dist rest := by
          refine ⟨inv.startZero, inv.attained, ?_, ?_, inv.sorted.of_cons⟩
          · intro p hp
            exact inv.qAtt p (List.mem_cons_of_mem _ hp)
          · intro v hv
            rcases inv.fresh v hv with ⟨c, hc, hmem⟩ | hrel
            · rcases List.mem_cons.mp hmem with heq | hmem'
              · exfalso
                have h1 : c = cur := congrArg Prod.fst heq
                have h2 : v = u := congrArg Prod.snd heq
                subst h2
                rw [hc, h1] at hstale
                exact lt_irrefl _ hstale
              · exact Or.inl ⟨c, hc, hmem'⟩
            · exact Or.inr hrel
        have hfuel' : (G.nodes.length - S.card) * (G.edges.length + 1) +
            rest.length + 1 ≤ f := by
          simp only [List.length_cons] at hfuel
          omega
        obtain ⟨d, hd, h0, hatt, hcov⟩ := ih dist rest S inv' hS hSsub hfuel'
        refine ⟨d, ?_, h0, hatt, hcov⟩
        simp only [dijAux, if_pos hstale]
        exact hd
      · have hqu := inv.qAtt (cur, u) (List.mem_cons_self _ _)
        have hcurle : dist u ≤ (cur : Qinf) := hqu.2.1
        have hdistu : dist u = (cur : Qinf) :=
          le_antisymm hcurle (le_of_not_lt hstale)
        have hunodes : u ∈ G.nodes := hqu.2.2
        have hWu : WReach G start u cur := hqu.1
        have hcur0 : 0 ≤ cur := wreach_nonneg hpos hWu
        have hmin : ∀ p ∈ rest, cur ≤ (p : ℚ × V).1 :=
          (List.pairwise_cons.mp inv.sorted).1
        have huopt : ∀ c, WReach G start u c → dist u ≤ (c : Qinf) := by
          intro c hr
          rcases dij_cover hpos inv.startZero inv.fresh hr with h | hex
          · exact h
          · obtain ⟨p, hp, hple⟩ := hex
            rw [hdistu]
            rcases List.mem_cons.mp hp with rfl | hp'
            · exact_mod_cast hple
            · have := le_trans (hmin p hp') hple
              exact_mod_cast this
        obtain ⟨L1, L2, L3, L4, L5, L6len⟩ :=
          relax_fold_spec G u cur (nbrsW G u) dist
            rest
        have hRu : ((nbrsW G u).foldl (relax G u cur) (dist, rest)).1 u =
            dist u := by
          rcases L2 u with h | ⟨h1, h2, h3, _⟩
          · exact h
          · exfalso
            have hadj : adjW G u u := mem_nbrsW_adjW h3
            have hw := wt_pos hpos hadj
            rw [h1, hdistu] at h2
            have : cur + wt G u u < cur := by exact_mod_cast h2
            linarith
        have hatt' : ∀ v,
            ((nbrsW G u).foldl (relax G u cur) (dist, rest)).1 v = ⊤ ∨
              ∃ c : ℚ,
                ((nbrsW G u).foldl (relax G u cur) (dist, rest)).1 v =
                  (c : Qinf) ∧ WReach G start v c := by
          intro v
          rcases L2 v with h | ⟨h1, _, h3, _⟩
          · rw [h]; exact inv.attained v
          · exact Or.inr ⟨cur + wt G u v, h1,
              wreach_snoc hWu (mem_nbrsW_adjW h3)⟩
        have hinv' : DijInv G start
            ((nbrsW G u).foldl (relax G u cur) (dist, rest)).1
            ((nbrsW G u).foldl (relax G u cur) (dist, rest)).2 := by
          refine ⟨?_, hatt', ?_, ?_, ?_⟩
          · rcases L2 start with h | ⟨h1, h2, h3, _⟩
            · rw [h]; exact inv.startZero
            · exfalso
              have hadj := mem_nbrsW_adjW h3
              have hw := wt_pos hpos hadj
              rw [h1, inv.startZero] at h2
              have h2' : ((cur + wt G u start : ℚ) : Qinf) <
                  ((0 : ℚ) : Qinf) := by
                simpa using h2
              have : cur + wt G u start < 0 := by exact_mod_cast h2'
              linarith
          · intro p hp
            rcases L4 p hp with hmem | ⟨y, hy, rfl, hle⟩
            · have h := inv.qAtt p (List.mem_cons_of_mem _ hmem)
              exact ⟨h.1, le_trans (L1 p.2) h.2.1, h.2.2⟩
            · exact ⟨wreach_snoc hWu (mem_nbrsW_adjW hy), hle,
                nbrsW_mem_nodes hwf hy⟩
          · intro v hvfin
            rcases hL2v : L2 v with _
            rcases L2 v with h | ⟨h1, _, _, h4⟩
            · have hvfin' : dist v ≠ ⊤ := by rw [← h]; exact hvfin
              rcases inv.fresh v hvfin' with ⟨c, hc, hmem⟩ | hrel
              · rcases List.mem_cons.mp hmem with heq | hmem'
                · have h2 : v = u := congrArg Prod.snd heq
                  subst h2
                  refine Or.inr ?_
                  intro y hy
                  calc ((nbrsW G v).foldl (relax G v cur) (dist, rest)).1 y ≤
                        ((cur + wt G v y : ℚ) : Qinf) := L5 y hy
                    _ = (cur : Qinf) + (wt G v y : Qinf) := by
                        rw [WithTop.coe_add]
                    _ = ((nbrsW G v).foldl (relax G v cur)
                          (dist, rest)).1 v + (wt G v y : Qinf) := by
                        rw [hRu, hdistu]
                · exact Or.inl ⟨c, by rw [h]; exact hc, L3 _ hmem'⟩
              · refine Or.inr ?_
                intro y hy
                calc ((nbrsW G u).foldl (relax G u cur) (dist, rest)).1 y ≤
                      dist y := L1 y
                  _ ≤ dist v + (wt G v y : Qinf) := hrel y hy
                  _ = ((nbrsW G u).foldl (relax G u cur)
                        (dist, rest)).1 v + (wt G v y : Qinf) := by rw [h]
            · exact Or.inl ⟨cur + wt G u v, h1, h4⟩
          · exact relax_fold_pairwise _ dist rest inv.sorted.of_cons
        have hSettledPres : ∀ v, Settled G start dist v →
            Settled G start
              ((nbrsW G u).foldl (relax G u cur) (dist, rest)).1 v := by
          intro v hv
          have hRv : ((nbrsW G u).foldl (relax G u cur) (dist, rest)).1 v =
              dist v := by
            rcases L2 v with h | ⟨h1, h2, h3, _⟩
            · exact h
            · exfalso
              have hopt := hv.1 (cur + wt G u v)
                (wreach_snoc hWu (mem_nbrsW_adjW h3))
              rw [h1] at h2
              exact absurd h2 (not_lt_of_le hopt)
          refine ⟨fun c hc => by rw [hRv]; exact hv.1 c hc, ?_⟩
          intro y hy
          calc ((nbrsW G u).foldl (relax G u cur) (dist, rest)).1 y ≤
                dist y := L1 y
            _ ≤ dist v + (wt G v y : Qinf) := hv.2 y hy
            _ = ((nbrsW G u).foldl (relax G u cur) (dist, rest)).1 v +
                (wt G v y : Qinf) := by rw [hRv]
        have hUSettled : Settled G start
            ((nbrsW G u).foldl (relax G u cur) (dist, rest)).1 u := by
          refine ⟨fun c hc => by rw [hRu]; exact huopt c hc, ?_⟩
          intro y hy
          calc ((nbrsW G u).foldl (relax G u cur) (dist, rest)).1 y ≤
                ((cur + wt G u y : ℚ) : Qinf) := L5 y hy
            _ = (cur : Qinf) + (wt G u y : Qinf) := by rw [WithTop.coe_add]
            _ = ((nbrsW G u).foldl (relax G u cur) (dist, rest)).1 u +
                (wt G u y : Qinf) := by rw [hRu, hdistu]
        have hS' : ∀ v ∈ insert u S, Settled G start
            ((nbrsW G u).foldl (relax G u cur) (dist, rest)).1 v := by
          intro v hv
          rcases Finset.mem_insert.mp hv with rfl | hv'
          · exact hUSettled
          · exact hSettledPres v (hS v hv')
        have hSsub' : ∀ v ∈ insert u S, v ∈ G.nodes := by
          intro v hv
          rcases Finset.mem_insert.mp hv with rfl | hv'
          · exact hunodes
          · exact hSsub v hv'
        have hcards : S.card ≤ G.nodes.length := by
          have hsub : S ⊆ G.nodes.toFinset := fun v hv =>
            List.mem_toFinset.mpr (hSsub v hv)
          exact le_trans (Finset.card_le_card hsub) (List.toFinset_card_le _)
        have hfuel' : (G.nodes.length - (insert u S).card) *
            (G.edges.length + 1) +
            ((nbrsW G u).foldl (relax G u cur) (dist, rest)).2.length + 1 ≤
            f := by
          by_cases huS : u ∈ S
          · rw [Finset.insert_eq_self.mpr huS]
            have hnoop : (nbrsW G u).foldl (relax G u cur) (dist, rest) =
                (dist, rest) := by
              apply relax_fold_noop
              intro y hy hlt
              have hle0 := (hS u huS).2 y hy
              rw [hdistu] at hle0
              have hle : dist y ≤ ((cur + wt G u y : ℚ) : Qinf) := by
                rw [WithTop.coe_add]
                exact hle0
              exact absurd hlt (not_lt_of_le hle)
            rw [hnoop]
            dsimp only
            simp only [List.length_cons] at hfuel
            omega
          · have hcard' : (insert u S).card = S.card + 1 :=
              Finset.card_insert_of_not_mem huS
            have hcardlt : S.card + 1 ≤ G.nodes.length := by
              have hsub : insert u S ⊆ G.nodes.toFinset := fun v hv =>
                List.mem_toFinset.mpr (hSsub' v hv)
              have := le_trans (Finset.card_le_card hsub)
                (List.toFinset_card_le _)
              omega
            have hlen := L6len
            have hns := nbrsW_length_le G u
            simp only [List.length_cons] at hfuel
            rw [hcard']
            have hexp : (G.nodes.length - S.card) * (G.edges.length + 1) =
                (G.nodes.length - (S.card + 1)) * (G.edges.length + 1) +
                  (G.edges.length + 1) := by
              have h1 : G.nodes.length - S.card =
                  (G.nodes.length - (S.card + 1)) + 1 := by omega
              rw [h1]
              ring
            omega
        obtain ⟨d, hd, h0, hatt, hcov⟩ := ih
          ((nbrsW G u).foldl (relax G u cur) (dist, rest)).1
          ((nbrsW G u).foldl (relax G u cur) (dist, rest)).2
          (insert u S) hinv' hS' hSsub' hfuel'
        refine ⟨d, ?_, h0, hatt, hcov⟩
        simp only [dijAux, if_neg hstale, if_pos hunodes]
        exact hd

/-! ### Entry point and claims C2, C3 -/

theorem dijkstra_spec (G : WGraph V) (start : V) (hwf : WfW G)
    (hpos : PosW G) (hs : start ∈ G.nodes) :
    ∃ d, dijkstra_from_source G start = some d ∧ d start = 0 ∧
      (∀ v, d v = ⊤ ∨ ∃ c : ℚ, d v = (c : Qinf) ∧ WReach G start v c) ∧
      ∀ w c, WReach G start w c → d w ≤ (c : Qinf) := by
  have hinv : DijInv G start (updF (fun _ => (⊤ : Qinf)) start (0 : Qinf))
      [((0 : ℚ), start)] := by
    refine ⟨?_, ?_, ?_, ?_, ?_⟩
    · rw [updF, if_pos rfl]
    · intro v
      by_cases hv : v = start
      · subst hv
        refine Or.inr ⟨0, ?_, WReach.refl v⟩
        rw [updF, if_pos rfl]
        simp
      · exact Or.inl (by rw [updF, if_neg hv])
    · intro p hp
      simp only [List.mem_singleton] at hp
      subst hp
      refine ⟨WReach.refl start, ?_, hs⟩
      rw [updF, if_pos rfl]
      simp
    · intro v hvfin
      by_cases hv : v = start
      · subst hv
        refine Or.inl ⟨0, ?_, by simp⟩
        rw [updF, if_pos rfl]
        simp
      · exfalso
        rw [updF, if_neg hv] at hvfin
        exact hvfin rfl
    · simp
  have h := dijAux_sound hwf hpos
    (G.nodes.length * (G.edges.length + 1) + 2)
    (updF (fun _ => (⊤ : Qinf)) start (0 : Qinf)) [((0 : ℚ), start)] ∅
    hinv (by simp) (by simp) (by simp)
  exact h

/-- **C2.** For every graph with positive edge weights and source node
present in it, Dijkstra terminates and its distance map records the
true shortest-path weight of every node of the graph (0 for the source
itself), with `+infinity` exactly on the nodes unreachable from the
source. -/
theorem C2_dijkstra_shortest (G : WGraph V) (start : V) (hwf : WfW G)
    (hpos : PosW G) (hs : start ∈ G.nodes) :
    ∃ d, dijkstra_from_source G start = some d ∧ d start = 0 ∧
      ∀ v ∈ G.nodes, (d v = ⊤ ↔ ¬ reachW G start v) ∧
        ∀ c : ℚ, d v = (c : Qinf) → IsShortestW G start v c := by
  obtain ⟨d, hd, h0, hatt, hcov⟩ := dijkstra_spec G start hwf hpos hs
  refine ⟨d, hd, h0, ?_⟩
  intro v hv
  constructor
  · constructor
    · rintro htop ⟨c, hc⟩
      have := hcov v c hc
      rw [htop] at this
      exact WithTop.not_top_le_coe c this
    · intro hnr
      rcases hatt v with h | ⟨c, hc, hw⟩
      · exact h
      · exact absurd ⟨c, hw⟩ hnr
  · intro c hc
    rcases hatt v with h | ⟨c', hc', hw⟩
    · rw [h] at hc
      exact absurd hc (by simp)
    · have hcc : c = c' := by
        rw [hc] at hc'
        exact_mod_cast hc'
      subst hcc
      refine ⟨hw, ?_⟩
      intro c'' hw''
      have := hcov v c'' hw''
      rw [hc] at this
      exact_mod_cast this

theorem C2_dijkstra_shortest_witness :
    WfW (WGraph.mk [Device.ISP, Device.Router]
        [(Device.ISP, Device.Router, (1 : ℚ))]) ∧
      PosW (WGraph.mk [Device.ISP, Device.Router]
        [(Device.ISP, Device.Router, (1 : ℚ))]) ∧
      Device.ISP ∈ (WGraph.mk [Device.ISP, Device.Router]
        [(Device.ISP, Device.Router, (1 : ℚ))]).nodes ∧
      ∃ d, dijkstra_from_source (WGraph.mk [Device.ISP, Device.Router]
          [(Device.ISP, Device.Router, (1 : ℚ))]) Device.ISP = some d ∧
        d Device.ISP = 0 ∧
        ∀ v ∈ (WGraph.mk [Device.ISP, Device.Router]
            [(Device.ISP, Device.Router, (1 : ℚ))]).nodes,
          (d v = ⊤ ↔ ¬ reachW (WGraph.mk [Device.ISP, Device.Router]
              [(Device.ISP, Device.Router, (1 : ℚ))]) Device.ISP v) ∧
          ∀ c : ℚ, d v = (c : Qinf) →
            IsShortestW (WGraph.mk [Device.ISP, Device.Router]
              [(Device.ISP, Device.Router, (1 : ℚ))]) Device.ISP v c := by
  have hpos : PosW (WGraph.mk [Device.ISP, Device.Router]
      [(Device.ISP, Device.Router, (1 : ℚ))]) := by
    intro e he
    simp only [List.mem_singleton] at he
    subst he
    norm_num
  exact ⟨by decide, hpos, by decide,
    C2_dijkstra_shortest (WGraph.mk [Device.ISP, Device.Router]
      [(Device.ISP, Device.Router, (1 : ℚ))]) Device.ISP (by decide) hpos
      (by decide)⟩

/-- **C3.** For every graph built by this program (weights derived from
speeds by `add_edge_weights`), the all-pairs table obtained by running
Dijkstra from every node is symmetric and its diagonal is zero. -/
theorem C3_all_pairs_symmetric (nodes : List V)
    (edges : List (V × V × ℤ))
    (hwf : WfW (WGraph.mk nodes (add_edge_weights edges))) (a b : V)
    (ha : a ∈ nodes) (hb : b ∈ nodes) :
    ∃ ta tb,
      all_pairs_shortest_distances
        (WGraph.mk nodes (add_edge_weights edges)) a = some ta ∧
      all_pairs_shortest_distances
        (WGraph.mk nodes (add_edge_weights edges)) b = some tb ∧
      ta b = tb a ∧ ta a = 0 := by
  have hpos : PosW (WGraph.mk nodes (add_edge_weights edges)) := by
    intro e he
    obtain ⟨e0, he0, rfl⟩ := List.mem_map.mp he
    have h1 : (1 : ℚ) ≤ ((max e0.2.2 1 : ℤ) : ℚ) := by
      exact_mod_cast le_max_right e0.2.2 1
    exact div_pos one_pos (lt_of_lt_of_le one_pos h1)
  obtain ⟨ta, hta, hta0, htaatt, htacov⟩ :=
    dijkstra_spec (WGraph.mk nodes (add_edge_weights edges)) a hwf hpos ha
  obtain ⟨tb, htb, htb0, htbatt, htbcov⟩ :=
    dijkstra_spec (WGraph.mk nodes (add_edge_weights edges)) b hwf hpos hb
  refine ⟨ta, tb, ?_, ?_, ?_, hta0⟩
  · unfold all_pairs_shortest_distances
    rw [if_pos ha]
    exact hta
  · unfold all_pairs_shortest_distances
    rw [if_pos hb]
    exact htb
  · rcases htaatt b with h1 | ⟨c1, hc1, hw1⟩
    · rcases htbatt a with h2 | ⟨c2, hc2, hw2⟩
      · rw [h1, h2]
      · exfalso
        have := htacov b c2 (wreach_symm hw2)
        rw [h1] at this
        exact WithTop.not_top_le_coe c2 this
    · rcases htbatt a with h2 | ⟨c2, hc2, hw2⟩
      · exfalso
        have := htbcov a c1 (wreach_symm hw1)
        rw [h2] at this
        exact WithTop.not_top_le_coe c1 this
      · rw [hc1, hc2]
        have hle1 : c1 ≤ c2 := by
          have := htacov b c2 (wreach_symm hw2)
          rw [hc1] at this
          exact_mod_cast this
        have hle2 : c2 ≤ c1 := by
          have := htbcov a c1 (wreach_symm hw1)
          rw [hc2] at this
          exact_mod_cast this
        rw [le_antisymm hle1 hle2]

theorem C3_all_pairs_symmetric_witness :
    WfW (WGraph.mk [Device.ISP, Device.Router]
        (add_edge_weights [(Device.ISP, Device.Router, (1000 : ℤ))])) ∧
      Device.ISP ∈ [Device.ISP, Device.Router] ∧
      Device.Router ∈ [Device.ISP, Device.Router] ∧
      ∃ ta tb,
        all_pairs_shortest_distances
          (WGraph.mk [Device.ISP, Device.Router]
            (add_edge_weights [(Device.ISP, Device.Router, (1000 : ℤ))]))
          Device.ISP = some ta ∧
        all_pairs_shortest_distances
          (WGraph.mk [Device.ISP, Device.Router]
            (add_edge_weights [(Device.ISP, Device.Router, (1000 : ℤ))]))
          Device.Router = some tb ∧
        ta Device.Router = tb Device.ISP ∧ ta Device.ISP = 0 :=
  ⟨by decide, by decide, by decide,
    C3_all_pairs_symmetric [Device.ISP, Device.Router]
      [(Device.ISP, Device.Router, (1000 : ℤ))] (by decide)
      Device.ISP Device.Router (by decide) (by decide)⟩

end NetGraph
